import Mathlib

/-!
Verification of the spacesavers duplicate-file scanner (`src/commands.py`)
against its natural-language specification.

The development shallowly embeds the Python source into Lean:

* Python integers are `Nat`/`Int` (Python integers are unbounded, so no
  modular reduction is needed).
* Fallible operations (`os.stat`, `os.path.getsize`, `md5sum`) are modelled
  as `Option`-valued probes supplied by an abstract file-system environment
  `FS`; a `none` result stands for the exception the Python call can raise.
* The dictionaries used by `_ls` are modelled as insertion-ordered
  association lists, matching the iteration-order guarantee of Python dicts.
* The floating-point arithmetic inside `readable_size` is modelled exactly
  (integer/rational arithmetic); the model agrees with the source wherever
  the float computations of the source are exact, which holds at every
  concrete input evaluated in this file.
* Calls to collaborators are instrumented: the state records which files had
  a partial or full hash computed, which identity lookups hit the account
  database, which files were excluded by a handled failure, and which group
  members were dropped because the metadata probe of their representative
  failed.  The instrumentation only records events at the exact call sites
  of the source; it never alters control flow.
-/

namespace SpaceSavers

/-! ## Identity resolution (`_name`, `name` in the source)

A Python value that is either a string (a resolved account name) or an
integer (the raw uid/gid, returned by `_name` when the account database has
no entry).  The distinction is observable in Python (`99999 != "99999"`),
so the embedding keeps it. -/

inductive StrOrInt where
  | str (s : String)
  | int (n : Nat)
deriving DecidableEq

/-- Python `str(val)` for the values stored in the identity cache. -/
def pyStr : StrOrInt → String
  | .str s => s
  | .int n => toString n

/-- The two identifier kinds accepted by `_name` (the source passes the
strings `user` and `group`). -/
inductive UidType where
  | user
  | group
deriving DecidableEq

/-- The platform account databases: `getpwuid` and `getgrgid`.  A `none`
result models the `KeyError` raised for an unknown id. -/
structure UnixDB where
  passwd : Nat → Option String
  grp : Nat → Option String

/-- The `users` dictionary of the source (one single dictionary shared by
uid and gid lookups), plus an instrumentation log of the database queries
actually performed (one entry per call to `_name`). -/
structure Cache where
  records : List (Nat × StrOrInt)
  queries : List (UidType × Nat)
deriving DecidableEq

/-- First match for `uid` in an association list. -/
def findRecord (uid : Nat) : List (Nat × StrOrInt) → Option StrOrInt
  | [] => none
  | (k, v) :: rest => if k = uid then some v else findRecord uid rest

/-- Lookup in the `records` association list (Python `uid_records[uid]`). -/
def Cache.find (c : Cache) (uid : Nat) : Option StrOrInt :=
  findRecord uid c.records

/-- Source `_name`: query the unix database for a uid/gid; on `KeyError`
return the original integer id unchanged. -/
def nameRaw (db : UnixDB) (uid : Nat) (t : UidType) : StrOrInt :=
  match t with
  | .user =>
      match db.passwd uid with
      | some n => .str n
      | none => .int uid
  | .group =>
      match db.grp uid with
      | some n => .str n
      | none => .int uid

/-- Source `name`: consult the cache first; on a miss call `_name`, record
the result in the cache (and log the database query performed). -/
def name (db : UnixDB) (uid : Nat) (t : UidType) (users : Cache) :
    StrOrInt × Cache :=
  match users.find uid with
  | some v => (v, users)
  | none =>
      let v := nameRaw db uid t
      (v, { records := users.records ++ [(uid, v)],
            queries := users.queries ++ [(t, uid)] })

/-! ## `readable_size` -/

/-- The `units` tuple of the source: nine entries, indices 0 through 8. -/
def units : List String :=
  ["B", "KiB", "MiB", "GiB", "TiB", "PiB", "EiB", "ZiB", "YiB"]

/-- The exponent `i = int(math.floor(math.log(sbytes, 1024)))` of the
source, in exact arithmetic, for `n ≥ 1`.  Exponents of 9 and above are all
collapsed to 9: the source only uses `i` to divide by `1024 ** i` and to
index `units`, and every index of at least 9 produces the same out-of-range
lookup (`IndexError`), so the collapse is unobservable in `readable_size`. -/
def unitIndex (n : Nat) : Nat :=
  if n < 1024 ^ 1 then 0
  else if n < 1024 ^ 2 then 1
  else if n < 1024 ^ 3 then 2
  else if n < 1024 ^ 4 then 3
  else if n < 1024 ^ 5 then 4
  else if n < 1024 ^ 6 then 5
  else if n < 1024 ^ 7 then 6
  else if n < 1024 ^ 8 then 7
  else if n < 1024 ^ 9 then 8
  else 9

/-- Python `round(n / p, 3)` on the exact rational `n / p`, as an integer
number of thousandths (round half to even, as Python rounds). -/
def round3 (n p : Nat) : Nat :=
  let q := 1000 * n
  let m := q / p
  let r := q % p
  if p < 2 * r then m + 1
  else if 2 * r < p then m
  else if m % 2 = 0 then m else m + 1

/-- Python `str` of the float `milli / 1000`: integer part, a dot, then the
fractional digits with trailing zeros removed but at least one digit kept
(`str(1.0) = "1.0"`, `str(1.5) = "1.5"`). -/
def fmtFloat3 (milli : Nat) : String :=
  let ip := milli / 1000
  let ds := ((toString (milli % 1000 + 1000)).drop 1).toList
  let kept := (ds.reverse.dropWhile (fun c => c == '0')).reverse
  let fs := if kept.isEmpty then "0" else String.mk kept
  toString ip ++ "." ++ fs

/-- Source `readable_size`: sizes of at most 0 short-circuit to `"0 B"`;
otherwise the value is scaled by `1024 ** i`, rounded to three decimals and
suffixed with `units[i]`.  A `none` result models the `IndexError` raised
when `i` falls outside the nine-entry tuple. -/
def readable_size (sbytes : Int) : Option String :=
  if sbytes ≤ 0 then some "0 B"
  else
    let n := sbytes.toNat
    let i := unitIndex n
    match units.get? i with
    | none => none
    | some u => some (fmtFloat3 (round3 n (1024 ^ i)) ++ " " ++ u)

/-! ## `file_stats` -/

/-- The parts of an `os.stat` result used by `file_stats`.  The permission
string (`stat.filemode(st_mode)`) and the formatted modification time
(`strftime` of `st_mtime`) are renderings produced by the Python standard
library from the raw stat fields; the embedding carries them as the strings
they render to. -/
structure StatRes where
  filemode : String
  st_ino : Nat
  st_uid : Nat
  st_gid : Nat
  mdate : String
  st_size : Int
deriving DecidableEq

/-- The abstract file system and account environment seen by one scan.

`getsize` models `os.path.getsize`, `stat` models `os.stat`; `none` stands
for the exception each can raise.

Modelled from the spec: `md5sum` (imported from `utils`, a repository file
absent from `src/`) computes an MD5 digest over the first 64 KiB of the
file when `first_block_only` is set and over the whole file otherwise.  It
is modelled as two abstract per-path digest probes, `minihash` and
`fullhash`, with `none` standing for an I/O failure during hashing. -/
structure FS where
  db : UnixDB
  getsize : String → Option Int
  minihash : String → Option String
  fullhash : String → Option String
  stat : String → Option StatRes

/-- The text of the warning the source logs through `err` when a probe on
`file` fails (the source message also interpolates the exception text,
which has no counterpart in the embedding).

Modelled from the spec: `err` (imported from `utils`, absent from `src/`)
prints its message as a warning line on the error stream. -/
def warnMsg (file : String) : String :=
  "WARNING: Failed to get info on \"" ++ file ++ "\""

/-- Source `file_stats`.  Outcomes:
`(some [], _, _)` when `os.stat` raised (the guarded branch returning `[]`),
`(some info, _, _)` with seven stringified fields on success, and
`(none, _, _)` when `readable_size` raised `IndexError` (the `try` of the
source guards only the `os.stat` call, so that fault propagates). -/
def file_stats (fs : FS) (file : String) (users : Cache) :
    Option (List String) × Cache × List String :=
  match fs.stat file with
  | none => (some [], users, [warnMsg file])
  | some st =>
      let (owner, users1) := name fs.db st.st_uid .user users
      let (group, users2) := name fs.db st.st_gid .group users1
      match readable_size st.st_size with
      | none => (none, users2, [])
      | some hsize =>
          (some [toString st.st_ino, st.filemode, pyStr owner, pyStr group,
                 toString st.st_size, hsize, st.mdate],
           users2, [])

/-! ## The `_ls` pipeline

Insertion-ordered dictionaries mapping a key to the list of files appended
under that key, as built by the
`if key not in d: d[key] = []` / `d[key].append(file)` idiom of the source. -/

/-- Append `f` under key `k`, creating the key at the end on first use. -/
def dictAppend {κ : Type} [DecidableEq κ] :
    List (κ × List String) → κ → String → List (κ × List String)
  | [], k, f => [(k, [f])]
  | (k', vs) :: rest, k, f =>
      if k' = k then (k', vs ++ [f]) :: rest
      else (k', vs) :: dictAppend rest k f

/-- The bucket stored under key `k` (empty when the key is absent). -/
def dget {κ : Type} [DecidableEq κ] : List (κ × List String) → κ → List String
  | [], _ => []
  | (k', vs) :: rest, k => if k' = k then vs else dget rest k

/-- One emitted report line: the seven `file_stats` fields, the
representative path, and the duplicate paths in order. -/
structure Emit where
  info : List String
  rep : String
  dups : List String
deriving DecidableEq

/-- The text the source prints for the record:
`"\t".join(file_info + [file, "|".join(duplicates)])`, with the empty
string as trailing field when there are no duplicates. -/
def Emit.line (e : Emit) : String :=
  String.intercalate "\t" (e.info ++ [e.rep, String.intercalate "|" e.dups])

/-- The evolving state of one `_ls` invocation: the shared identity cache,
the emitted records, the warning log, and the instrumentation logs
(`failed`: files excluded by a handled probe or hash failure; `dropped`:
members of groups skipped because `file_stats` failed on the
representative; `hashedPart` / `hashedFull`: files for which a partial or
full hash computation was started). -/
structure LsState where
  users : Cache
  out : List Emit
  warns : List String
  failed : List String
  dropped : List String
  hashedPart : List String
  hashedFull : List String
deriving DecidableEq

def initState : LsState :=
  { users := { records := [], queries := [] },
    out := [], warns := [], failed := [], dropped := [],
    hashedPart := [], hashedFull := [] }

/-- Stage 1 of `_ls`: bucket the traversed files by size; a failing size
probe logs a warning and skips the file. -/
def stage1 (fs : FS) : List String → List (Int × List String) → LsState →
    List (Int × List String) × LsState
  | [], sizes, st => (sizes, st)
  | f :: rest, sizes, st =>
      match fs.getsize f with
      | some sz => stage1 fs rest (dictAppend sizes sz f) st
      | none =>
          stage1 fs rest sizes
            { st with warns := st.warns ++ [warnMsg f],
                      failed := st.failed ++ [f] }

/-- Report one final group: `file_stats` on the representative; a `[]`
result (failed stat) drops the whole group with the warning; a `none`
result (propagating `IndexError`) aborts `_ls`. -/
def emitGroup (fs : FS) (rep : String) (dups : List String) (st : LsState) :
    Option LsState :=
  match file_stats fs rep st.users with
  | (none, u, w) =>
      let _ := u
      let _ := w
      none
  | (some [], u, w) =>
      some { st with users := u, warns := st.warns ++ w,
                     dropped := st.dropped ++ (rep :: dups) }
  | (some info, u, w) =>
      some { st with users := u, warns := st.warns ++ w,
                     out := st.out ++ [⟨info, rep, dups⟩] }

/-- The inner loop of Stage 2: compute the 64 KiB mini hash of each file of
one multi-member size bucket and re-bucket under `(mini_hash, size)`. -/
def hashFiles (fs : FS) (size : Int) :
    List String → List ((String × Int) × List String) → LsState →
    List ((String × Int) × List String) × LsState
  | [], mini, st => (mini, st)
  | f :: rest, mini, st =>
      match fs.minihash f with
      | some h =>
          hashFiles fs size rest (dictAppend mini (h, size) f)
            { st with hashedPart := st.hashedPart ++ [f] }
      | none =>
          hashFiles fs size rest mini
            { st with hashedPart := st.hashedPart ++ [f],
                      warns := st.warns ++ [warnMsg f],
                      failed := st.failed ++ [f] }

/-- Stage 2 of `_ls`: iterate the size buckets in insertion order; emit
single-member buckets immediately, mini-hash the members of the others. -/
def stage2 (fs : FS) :
    List (Int × List String) → List ((String × Int) × List String) →
    LsState → Option (List ((String × Int) × List String) × LsState)
  | [], mini, st => some (mini, st)
  | (size, files) :: rest, mini, st =>
      if files.length < 2 then
        match emitGroup fs files.headI [] st with
        | none => none
        | some st1 => stage2 fs rest mini st1
      else
        let (mini1, st1) := hashFiles fs size files mini st
        stage2 fs rest mini1 st1

/-- The inner loop of Stage 3: compute the full-file hash of each file of
one multi-member mini-hash bucket and re-bucket under `(full_hash, size)`. -/
def hashFullFiles (fs : FS) (size : Int) :
    List String → List ((String × Int) × List String) → LsState →
    List ((String × Int) × List String) × LsState
  | [], full, st => (full, st)
  | f :: rest, full, st =>
      match fs.fullhash f with
      | some h =>
          hashFullFiles fs size rest (dictAppend full (h, size) f)
            { st with hashedFull := st.hashedFull ++ [f] }
      | none =>
          hashFullFiles fs size rest full
            { st with hashedFull := st.hashedFull ++ [f],
                      warns := st.warns ++ [warnMsg f],
                      failed := st.failed ++ [f] }

/-- Stage 3 of `_ls`: iterate the mini-hash buckets in insertion order;
emit single-member buckets, full-hash the members of the others (the size
component of the composite key is `hash_tuple[1]` of the source). -/
def stage3 (fs : FS) :
    List ((String × Int) × List String) →
    List ((String × Int) × List String) →
    LsState → Option (List ((String × Int) × List String) × LsState)
  | [], full, st => some (full, st)
  | ((_h, size), files) :: rest, full, st =>
      if files.length < 2 then
        match emitGroup fs files.headI [] st with
        | none => none
        | some st1 => stage3 fs rest full st1
      else
        let (full1, st1) := hashFullFiles fs size files full st
        stage3 fs rest full1 st1

/-- The final loop of `_ls`: report every full-hash bucket, the first
member as representative, the rest joined by `"|"` as duplicates. -/
def stage4 (fs : FS) :
    List ((String × Int) × List String) → LsState → Option LsState
  | [], st => some st
  | (_key, files) :: rest, st =>
      match emitGroup fs files.headI files.tail st with
      | none => none
      | some st1 => stage4 fs rest st1

/-- Source `_ls`, applied to the file sequence produced by the (external)
traversal.  The `md5` parameter is the toggle the source accepts; the
source body never reads it.  A `none` result models an uncaught
`IndexError` escaping from `readable_size`. -/
def _ls (fs : FS) (files : List String) (md5 : Bool) : Option LsState :=
  let _ := md5
  let (sizes, st1) := stage1 fs files [] initState
  match stage2 fs sizes [] st1 with
  | none => none
  | some (mini, st2) =>
      match stage3 fs mini [] st2 with
      | none => none
      | some (full, st3) => stage4 fs full st3

/-! ## Derived observations -/

/-- All files named by the emitted groups: each representative followed by
its duplicates. -/
def groupFiles (st : LsState) : List String :=
  (st.out.map (fun e => e.rep :: e.dups)).flatten

/-- Every file the final state accounts for: group members, files excluded
by a handled failure, and members of dropped groups. -/
def ledger (st : LsState) : List String :=
  groupFiles st ++ st.failed ++ st.dropped

/-- All files stored in the buckets of a dictionary. -/
def dvals {κ : Type} (d : List (κ × List String)) : List String :=
  (d.map Prod.snd).flatten

/-- The collision-freedom assumption of the spec for the digests: two files
of equal size and equal full-file digest have equal content, hence equal
first-64-KiB digest. -/
def HashConsistent (fs : FS) : Prop :=
  ∀ f g : String, fs.getsize f = fs.getsize g → fs.getsize f ≠ none →
    fs.fullhash f = fs.fullhash g → fs.fullhash f ≠ none →
    fs.minihash f = fs.minihash g

/-- The keys of a dictionary, in insertion order. -/
def dkeys {κ : Type} (d : List (κ × List String)) : List κ :=
  d.map Prod.fst

/-! ## Predicates and concrete environments used by the lemmas and
claim-level theorems below -/

/-- The shape every emitted record has: its info fields are the seven
stringified stat fields of the representative, in the fixed order. -/
def ShapeOK (fs : FS) (e : Emit) : Prop :=
  ∃ sr hs own grpn, fs.stat e.rep = some sr ∧
    readable_size sr.st_size = some hs ∧
    e.info = [toString sr.st_ino, sr.filemode, own, grpn,
              toString sr.st_size, hs, sr.mdate]

/-- All emitted records list their group in traversal order (an ordered
sublist of the traversed files, the representative first) and carry the
seven-field metadata of the representative. -/
def OutOK (fs : FS) (files : List String) (st : LsState) : Prop :=
  ∀ e ∈ st.out, (e.rep :: e.dups).Sublist files ∧ ShapeOK fs e

/-- Invariant of the inner Stage 3 loop over the files `vsRem` still to be
full-hashed (all of size `s` and partial hash `hh`): every accumulated
bucket is nonempty, its members match its key, and it is either a bucket of
the current mini bucket (all members with partial hash `hh`, and together
with the matching part of `vsRem` an ordered sublist of the traversal) or
an untouched older bucket that no remaining file can extend. -/
def InnerInv (fs : FS) (files : List String) (restKeys : List (String × Int))
    (s : Int) (hh : String) (vsRem : List String)
    (acc : List ((String × Int) × List String)) : Prop :=
  ∀ p ∈ acc,
    p.2 ≠ [] ∧
    (∀ f ∈ p.2, fs.getsize f = some p.1.2 ∧ fs.fullhash f = some p.1.1) ∧
    ((p.1.2 = s ∧ (∀ f ∈ p.2, fs.minihash f = some hh) ∧
        (p.2 ++ vsRem.filter
          (fun f => decide (fs.fullhash f = some p.1.1))).Sublist files) ∨
      (p.2.Sublist files ∧
        (∃ h3, (∀ f ∈ p.2, fs.minihash f = some h3) ∧ (h3, p.1.2) ∉ restKeys) ∧
        ∀ f ∈ vsRem, ¬(fs.fullhash f = some p.1.1 ∧ p.1.2 = s)))

/-- Invariant of the outer Stage 3 loop: every bucket of `full_hashes` is
nonempty, matches its key, carries a partial-hash tag whose mini bucket has
already been consumed, and lists its members in traversal order. -/
def FullInv (fs : FS) (files : List String)
    (miniRem : List ((String × Int) × List String))
    (full : List ((String × Int) × List String)) : Prop :=
  ∀ p ∈ full,
    p.2 ≠ [] ∧
    (∀ f ∈ p.2, fs.getsize f = some p.1.2 ∧ fs.fullhash f = some p.1.1) ∧
    (∃ h3, (∀ f ∈ p.2, fs.minihash f = some h3) ∧
      (h3, p.1.2) ∉ dkeys miniRem) ∧
    p.2.Sublist files

/-- The empty identity cache, as `_ls` starts with (`users = {}`). -/
def cache0 : Cache := { records := [], queries := [] }

/-- An account database with no entries at all. -/
def dbC5 : UnixDB := { passwd := fun _ => none, grp := fun _ => none }

/-- An account environment in which uid 5 and gid 5 both exist but belong
to different names. -/
def dbC6 : UnixDB :=
  { passwd := fun u => if u = 5 then some "alice" else none,
    grp := fun g => if g = 5 then some "staff" else none }

def srC6 : StatRes :=
  { filemode := "-rw-r--r--", st_ino := 7, st_uid := 5, st_gid := 5,
    mdate := "2020-01-01-00:00", st_size := 1 }

def fsC6 : FS :=
  { db := dbC6, getsize := fun _ => some 1, minihash := fun _ => some "m",
    fullhash := fun _ => some "h", stat := fun _ => some srC6 }

/-- A stat result with a size of `2 ^ 95` bytes, far beyond `1024 ^ 9`. -/
def srC10 : StatRes :=
  { filemode := "-rw-r--r--", st_ino := 1, st_uid := 0, st_gid := 0,
    mdate := "2020-01-01-00:00", st_size := 39614081257132168796771975168 }

def fsC10 : FS :=
  { db := dbC5, getsize := fun _ => some 39614081257132168796771975168,
    minihash := fun _ => none, fullhash := fun _ => none,
    stat := fun _ => some srC10 }

def srW10 : StatRes :=
  { filemode := "-rw-r--r--", st_ino := 4, st_uid := 0, st_gid := 0,
    mdate := "2020-01-01-00:00", st_size := 1 }

def fsW10 : FS :=
  { db := dbC5, getsize := fun _ => some 1, minihash := fun _ => none,
    fullhash := fun _ => none, stat := fun _ => some srW10 }

def srC4 : StatRes :=
  { filemode := "-rw-r--r--", st_ino := 3, st_uid := 0, st_gid := 0,
    mdate := "2020-01-01-00:00", st_size := 1 }

def fsC4 : FS :=
  { db := dbC5, getsize := fun _ => some 1, minihash := fun _ => some "m",
    fullhash := fun f => if f = "a" then some "x" else some "y",
    stat := fun _ => some srC4 }

def srC1 : StatRes :=
  { filemode := "-rw-r--r--", st_ino := 9, st_uid := 0, st_gid := 0,
    mdate := "2020-01-01-00:00", st_size := 1 }

def fsC1 : FS :=
  { db := dbC5, getsize := fun _ => some 1, minihash := fun _ => some "m",
    fullhash := fun _ => some "h",
    stat := fun f => if f = "a" then none else some srC1 }

def srW1 : StatRes :=
  { filemode := "-rw-r--r--", st_ino := 11, st_uid := 0, st_gid := 0,
    mdate := "2021-06-01-12:00", st_size := 4 }

def fsW1 : FS :=
  { db := { passwd := fun u => if u = 0 then some "root" else none,
            grp := fun g => if g = 0 then some "root" else none },
    getsize := fun _ => some 4, minihash := fun _ => some "m",
    fullhash := fun _ => some "h", stat := fun _ => some srW1 }

def stW1 : LsState :=
  { users := { records := [(0, StrOrInt.str "root")],
               queries := [(UidType.user, 0)] },
    out := [⟨["11", "-rw-r--r--", "root", "root", "4", "4.0 B",
              "2021-06-01-12:00"], "a", ["b"]⟩],
    warns := [], failed := [], dropped := [],
    hashedPart := ["a", "b"], hashedFull := ["a", "b"] }

def fsW8 : FS :=
  { db := fsW1.db,
    getsize := fun f => if f = "b" then none else some 4,
    minihash := fun _ => some "m", fullhash := fun _ => some "h",
    stat := fun _ => some srW1 }

def stW8 : LsState :=
  { users := { records := [(0, StrOrInt.str "root")],
               queries := [(UidType.user, 0)] },
    out := [⟨["11", "-rw-r--r--", "root", "root", "4", "4.0 B",
              "2021-06-01-12:00"], "a", []⟩],
    warns := ["WARNING: Failed to get info on \"b\""],
    failed := ["b"], dropped := [],
    hashedPart := [], hashedFull := [] }

def srC2 : StatRes :=
  { filemode := "-rw-r--r--", st_ino := 5, st_uid := 0, st_gid := 0,
    mdate := "2020-01-01-00:00", st_size := 1 }

def fsC2 : FS :=
  { db := dbC5,
    getsize := fun f => if f = "a" then some 1 else some 2,
    minihash := fun _ => some "m", fullhash := fun _ => some "h",
    stat := fun f => if f = "a" then none else some srC2 }

def fsW2 : FS :=
  { db := fsW1.db,
    getsize := fun f => if f = "u" then some 1 else some 2,
    minihash := fun f => if f = "v" then some "mv" else some "mw",
    fullhash := fun _ => some "h", stat := fun _ => some srW1 }

def stW2 : LsState :=
  { users := { records := [(0, StrOrInt.str "root")],
               queries := [(UidType.user, 0)] },
    out := [⟨["11", "-rw-r--r--", "root", "root", "4", "4.0 B",
              "2021-06-01-12:00"], "u", []⟩,
            ⟨["11", "-rw-r--r--", "root", "root", "4", "4.0 B",
              "2021-06-01-12:00"], "v", []⟩,
            ⟨["11", "-rw-r--r--", "root", "root", "4", "4.0 B",
              "2021-06-01-12:00"], "w", []⟩],
    warns := [], failed := [], dropped := [],
    hashedPart := ["v", "w"], hashedFull := [] }

def fsW3 : FS :=
  { db := fsW1.db, getsize := fun _ => some 4,
    minihash := fun _ => some "m", fullhash := fun _ => none,
    stat := fun _ => some srW1 }

def stW3 : LsState :=
  { users := { records := [(0, StrOrInt.str "root")],
               queries := [(UidType.user, 0)] },
    out := [⟨["11", "-rw-r--r--", "root", "root", "4", "4.0 B",
              "2021-06-01-12:00"], "a", []⟩],
    warns := [], failed := [], dropped := [],
    hashedPart := [], hashedFull := [] }

/-- The single record emitted by the one-file scan over `fsW3`. -/
def eW3 : Emit :=
  ⟨["11", "-rw-r--r--", "root", "root", "4", "4.0 B",
    "2021-06-01-12:00"], "a", []⟩

/-! ## Dictionary lemmas -/

section DictLemmas

variable {κ : Type}

theorem dvals_nil : dvals ([] : List (κ × List String)) = [] := rfl

theorem dvals_cons (p : κ × List String) (d : List (κ × List String)) :
    dvals (p :: d) = p.2 ++ dvals d := by
  simp [dvals]

theorem dvals_dictAppend [DecidableEq κ] (d : List (κ × List String)) (k : κ)
    (f : String) : (dvals (dictAppend d k f)).Perm (f :: dvals d) := by
  induction d with
  | nil => simp [dictAppend, dvals]
  | cons p rest ih =>
      obtain ⟨k', vs⟩ := p
      by_cases hk : k' = k
      · simp only [dictAppend, if_pos hk, dvals_cons]
        simpa [List.append_assoc] using
          (@List.perm_middle _ f vs (dvals rest))
      · simp only [dictAppend, if_neg hk, dvals_cons]
        exact (List.Perm.append_left vs ih).trans List.perm_middle

theorem dget_dictAppend [DecidableEq κ] (d : List (κ × List String))
    (k k' : κ) (f : String) :
    dget (dictAppend d k f) k' =
      if k' = k then dget d k' ++ [f] else dget d k' := by
  induction d with
  | nil =>
      by_cases h : k' = k
      · subst h; simp [dictAppend, dget]
      · simp [dictAppend, dget, h, Ne.symm h]
  | cons p rest ih =>
      obtain ⟨k0, vs⟩ := p
      by_cases h0 : k0 = k
      · subst h0
        by_cases h1 : k0 = k'
        · subst h1; simp [dictAppend, dget]
        · simp [dictAppend, dget, h1, Ne.symm h1]
      · by_cases h1 : k0 = k'
        · subst h1
          simp [dictAppend, dget, h0, Ne.symm h0]
        · simp [dictAppend, dget, h0, h1, ih]

theorem mem_dictAppend [DecidableEq κ] {d : List (κ × List String)} {k : κ}
    {f : String} {p : κ × List String} (hp : p ∈ dictAppend d k f) :
    p ∈ d ∨ p = (k, dget d k ++ [f]) := by
  induction d with
  | nil =>
      simp only [dictAppend, List.mem_singleton] at hp
      right; simp [hp, dget]
  | cons q rest ih =>
      obtain ⟨k0, vs⟩ := q
      by_cases h0 : k0 = k
      · subst h0
        simp only [dictAppend, if_pos rfl] at hp
        rcases List.mem_cons.mp hp with h | h
        · right; simp [h, dget]
        · left; exact List.mem_cons_of_mem _ h
      · simp only [dictAppend, if_neg h0] at hp
        rcases List.mem_cons.mp hp with h | h
        · left; simp [h]
        · rcases ih h with h1 | h1
          · left; exact List.mem_cons_of_mem _ h1
          · right; simpa [dget, h0] using h1

theorem dget_eq_nil_of_not_mem [DecidableEq κ] {d : List (κ × List String)}
    {k : κ} (h : k ∉ dkeys d) : dget d k = [] := by
  induction d with
  | nil => rfl
  | cons p rest ih =>
      obtain ⟨k0, vs⟩ := p
      simp only [dkeys, List.map_cons, List.mem_cons, not_or] at h
      have hk : ¬ k0 = k := fun hh => h.1 hh.symm
      simp only [dget, if_neg hk]
      exact ih h.2

theorem dget_mem [DecidableEq κ] {d : List (κ × List String)} {k : κ}
    (h : dget d k ≠ []) : (k, dget d k) ∈ d := by
  induction d with
  | nil => simp [dget] at h
  | cons p rest ih =>
      obtain ⟨k0, vs⟩ := p
      by_cases h0 : k0 = k
      · subst h0
        simp only [dget, if_pos rfl] at h ⊢
        exact List.mem_cons_self _ _
      · simp only [dget, if_neg h0] at h ⊢
        exact List.mem_cons_of_mem _ (ih h)

theorem mem_dget [DecidableEq κ] {d : List (κ × List String)} {k : κ}
    {vs : List String} (hnd : (dkeys d).Nodup) (h : (k, vs) ∈ d) :
    dget d k = vs := by
  induction d with
  | nil => simp at h
  | cons p rest ih =>
      obtain ⟨k0, vs0⟩ := p
      rw [dkeys, List.map_cons, List.nodup_cons] at hnd
      rcases List.mem_cons.mp h with h1 | h1
      · cases h1
        simp [dget]
      · have hk0 : ¬ k0 = k := by
          intro hk
          subst hk
          have hmem : ((k0, vs) : κ × List String).1 ∈ List.map Prod.fst rest :=
            List.mem_map_of_mem Prod.fst h1
          exact hnd.1 hmem
        simp only [dget, if_neg hk0]
        exact ih hnd.2 h1

theorem dkeys_dictAppend [DecidableEq κ] (d : List (κ × List String)) (k : κ)
    (f : String) :
    dkeys (dictAppend d k f) =
      if k ∈ dkeys d then dkeys d else dkeys d ++ [k] := by
  induction d with
  | nil => simp [dictAppend, dkeys]
  | cons p rest ih =>
      obtain ⟨k0, vs⟩ := p
      by_cases h0 : k0 = k
      · subst h0
        simp [dictAppend, dkeys]
      · simp only [dictAppend, if_neg h0, dkeys, List.map_cons] at ih ⊢
        rw [ih]
        by_cases hm : k ∈ List.map Prod.fst rest
        · simp [hm, h0]
        · simp [hm, Ne.symm h0]

theorem dkeys_nodup_dictAppend [DecidableEq κ] {d : List (κ × List String)}
    {k : κ} {f : String} (hnd : (dkeys d).Nodup) :
    (dkeys (dictAppend d k f)).Nodup := by
  rw [dkeys_dictAppend]
  by_cases hm : k ∈ dkeys d
  · simpa [hm] using hnd
  · rw [if_neg hm]
    rw [List.nodup_append]
    refine ⟨hnd, List.nodup_singleton k, ?_⟩
    intro a ha hb
    rw [List.mem_singleton] at hb
    subst hb
    exact hm ha

theorem dictAppend_nonempty [DecidableEq κ] {d : List (κ × List String)}
    {k : κ} {f : String} (h : ∀ p ∈ d, p.2 ≠ []) :
    ∀ p ∈ dictAppend d k f, p.2 ≠ [] := by
  intro p hp
  rcases mem_dictAppend hp with h1 | h1
  · exact h p h1
  · simp [h1]

end DictLemmas

/-! ## Small helpers -/

theorem short_eq_headI {vs : List String} (h1 : vs.length < 2) (h2 : vs ≠ []) :
    vs = [vs.headI] := by
  match vs with
  | [] => exact absurd rfl h2
  | [v] => rfl
  | v :: w :: rest => simp at h1; omega

/-! ## `file_stats` shape lemmas -/

theorem file_stats_empty_iff (fs : FS) (f : String) (u : Cache) :
    (file_stats fs f u).1 = some [] ↔ fs.stat f = none := by
  cases hstat : fs.stat f with
  | none => simp [file_stats, hstat]
  | some sr =>
      simp only [file_stats, hstat]
      rcases hp : name fs.db sr.st_uid UidType.user u with ⟨own, u1⟩
      rcases hq : name fs.db sr.st_gid UidType.group u1 with ⟨grpn, u2⟩
      cases hrs : readable_size sr.st_size <;> simp [hp, hq, hrs]

theorem file_stats_fst (fs : FS) (f : String) (u : Cache) {sr : StatRes}
    (hstat : fs.stat f = some sr) :
    (file_stats fs f u).1 =
      match readable_size sr.st_size with
      | none => none
      | some hsz =>
          some [toString sr.st_ino, sr.filemode,
                pyStr (name fs.db sr.st_uid .user u).1,
                pyStr (name fs.db sr.st_gid .group
                        (name fs.db sr.st_uid .user u).2).1,
                toString sr.st_size, hsz, sr.mdate] := by
  simp only [file_stats, hstat]
  rcases hp : name fs.db sr.st_uid UidType.user u with ⟨own, u1⟩
  rcases hq : name fs.db sr.st_gid UidType.group u1 with ⟨grpn, u2⟩
  cases hrs : readable_size sr.st_size <;> simp [hp, hq, hrs]

theorem file_stats_shape (fs : FS) (f : String) (u : Cache) {info : List String}
    (h : (file_stats fs f u).1 = some info) (hne : info ≠ []) :
    ∃ sr hs own grpn, fs.stat f = some sr ∧
      readable_size sr.st_size = some hs ∧
      info = [toString sr.st_ino, sr.filemode, own, grpn,
              toString sr.st_size, hs, sr.mdate] := by
  cases hstat : fs.stat f with
  | none =>
      rw [file_stats_empty_iff fs f u |>.mpr hstat] at h
      cases h
      exact absurd rfl hne
  | some sr =>
      rw [file_stats_fst fs f u hstat] at h
      cases hrs : readable_size sr.st_size with
      | none => rw [hrs] at h; cases h
      | some hsz =>
          rw [hrs] at h
          simp only [Option.some.injEq] at h
          exact ⟨sr, hsz, _, _, rfl, hrs, h.symm⟩

theorem file_stats_success (fs : FS) (f : String) (u : Cache) {sr : StatRes}
    {hs : String} (hstat : fs.stat f = some sr)
    (hrs : readable_size sr.st_size = some hs) :
    ∃ info, (file_stats fs f u).1 = some info ∧ info ≠ [] := by
  rw [file_stats_fst fs f u hstat, hrs]
  exact ⟨_, rfl, by simp⟩

/-! ## `emitGroup` lemmas -/

theorem emitGroup_cases {fs : FS} {rep : String} {dups : List String}
    {st st' : LsState} (h : emitGroup fs rep dups st = some st') :
    (∃ u w, file_stats fs rep st.users = (some [], u, w) ∧
      st' = { st with users := u, warns := st.warns ++ w,
                      dropped := st.dropped ++ (rep :: dups) }) ∨
    (∃ info u w, file_stats fs rep st.users = (some info, u, w) ∧ info ≠ [] ∧
      st' = { st with users := u, warns := st.warns ++ w,
                      out := st.out ++ [⟨info, rep, dups⟩] }) := by
  rcases hfs : file_stats fs rep st.users with ⟨oinfo, u, w⟩
  rcases oinfo with _ | info
  · exfalso
    simp [emitGroup, hfs] at h
  · rcases info with _ | ⟨i, is⟩
    · left
      simp only [emitGroup, hfs] at h
      cases h
      exact ⟨u, w, rfl, rfl⟩
    · right
      simp only [emitGroup, hfs] at h
      cases h
      exact ⟨i :: is, u, w, rfl, by simp, rfl⟩

theorem emitGroup_fixed {fs : FS} {rep : String} {dups : List String}
    {st st' : LsState} (h : emitGroup fs rep dups st = some st') :
    st'.failed = st.failed ∧ st'.hashedPart = st.hashedPart ∧
      st'.hashedFull = st.hashedFull := by
  rcases emitGroup_cases h with ⟨u, w, _, rfl⟩ | ⟨info, u, w, _, _, rfl⟩ <;>
    exact ⟨rfl, rfl, rfl⟩

theorem emitGroup_out_mono {fs : FS} {rep : String} {dups : List String}
    {st st' : LsState} (h : emitGroup fs rep dups st = some st') :
    ∃ l, st'.out = st.out ++ l ∧
      ∀ e ∈ l, e.rep = rep ∧ e.dups = dups ∧
        (file_stats fs rep st.users).1 = some e.info ∧ e.info ≠ [] := by
  rcases emitGroup_cases h with ⟨u, w, _, rfl⟩ | ⟨info, u, w, hfs, hne, rfl⟩
  · exact ⟨[], by simp, by simp⟩
  · refine ⟨[⟨info, rep, dups⟩], rfl, ?_⟩
    intro e he
    rw [List.mem_singleton] at he
    subst he
    exact ⟨rfl, rfl, by rw [hfs], hne⟩

theorem emitGroup_warns_mono {fs : FS} {rep : String} {dups : List String}
    {st st' : LsState} (h : emitGroup fs rep dups st = some st') :
    ∃ l, st'.warns = st.warns ++ l := by
  rcases emitGroup_cases h with ⟨u, w, _, rfl⟩ | ⟨info, u, w, _, _, rfl⟩ <;>
    exact ⟨w, rfl⟩

theorem emitGroup_ledger {fs : FS} {rep : String} {dups : List String}
    {st st' : LsState} (h : emitGroup fs rep dups st = some st') :
    (ledger st').Perm (ledger st ++ (rep :: dups)) := by
  rcases emitGroup_cases h with ⟨u, w, _, rfl⟩ | ⟨info, u, w, _, _, rfl⟩ <;>
  · rw [List.perm_iff_count]
    intro a
    simp [ledger, groupFiles, List.count_append, List.map_append,
          List.count_cons]
    try omega

/-! ## `stage1` lemmas -/

theorem stage1_state (fs : FS) (files : List String)
    (sizes : List (Int × List String)) (st : LsState) :
    (stage1 fs files sizes st).2 =
      { st with
        warns := st.warns ++
          (files.filter (fun f => (fs.getsize f).isNone)).map warnMsg,
        failed := st.failed ++ files.filter (fun f => (fs.getsize f).isNone) } := by
  induction files generalizing sizes st with
  | nil => simp [stage1]
  | cons f rest ih =>
      cases hgs : fs.getsize f with
      | some sz =>
          simp only [stage1, hgs]
          rw [ih]
          simp [List.filter_cons, hgs]
      | none =>
          simp only [stage1, hgs]
          rw [ih]
          simp [List.filter_cons, hgs, List.append_assoc]

theorem stage1_dget (fs : FS) (files : List String)
    (sizes : List (Int × List String)) (st : LsState) (k : Int) :
    dget (stage1 fs files sizes st).1 k =
      dget sizes k ++ files.filter (fun f => decide (fs.getsize f = some k)) := by
  induction files generalizing sizes st with
  | nil => simp [stage1]
  | cons f rest ih =>
      cases hgs : fs.getsize f with
      | some sz =>
          simp only [stage1, hgs]
          rw [ih, dget_dictAppend]
          by_cases hk : k = sz
          · subst hk
            simp [List.filter_cons, hgs, List.append_assoc]
          · simp [List.filter_cons, hgs, hk, Ne.symm hk]
      | none =>
          simp only [stage1, hgs]
          rw [ih]
          simp [List.filter_cons, hgs]

theorem stage1_dvals_perm (fs : FS) (files : List String)
    (sizes : List (Int × List String)) (st : LsState) :
    (dvals (stage1 fs files sizes st).1).Perm
      (dvals sizes ++ files.filter (fun f => (fs.getsize f).isSome)) := by
  induction files generalizing sizes st with
  | nil => simp [stage1]
  | cons f rest ih =>
      cases hgs : fs.getsize f with
      | some sz =>
          simp only [stage1, hgs]
          refine (ih _ _).trans ?_
          rw [List.perm_iff_count]
          intro a
          have hda := (dvals_dictAppend sizes sz f).count_eq a
          simp [List.filter_cons, hgs, List.count_append, hda, List.count_cons]
          omega
      | none =>
          simp only [stage1, hgs]
          refine (ih _ _).trans ?_
          simp [List.filter_cons, hgs]

theorem stage1_keys_nodup (fs : FS) (files : List String)
    (sizes : List (Int × List String)) (st : LsState)
    (hnd : (dkeys sizes).Nodup) :
    (dkeys (stage1 fs files sizes st).1).Nodup := by
  induction files generalizing sizes st with
  | nil => simpa [stage1] using hnd
  | cons f rest ih =>
      cases hgs : fs.getsize f with
      | some sz =>
          simp only [stage1, hgs]
          exact ih _ _ (dkeys_nodup_dictAppend hnd)
      | none =>
          simp only [stage1, hgs]
          exact ih _ _ hnd

/-! ## `hashFiles` lemmas (Stage 2 inner loop) -/

theorem hashFiles_state (fs : FS) (size : Int) (files : List String)
    (mini : List ((String × Int) × List String)) (st : LsState) :
    (hashFiles fs size files mini st).2 =
      { st with
        hashedPart := st.hashedPart ++ files,
        warns := st.warns ++
          (files.filter (fun f => (fs.minihash f).isNone)).map warnMsg,
        failed := st.failed ++
          files.filter (fun f => (fs.minihash f).isNone) } := by
  induction files generalizing mini st with
  | nil => simp [hashFiles]
  | cons f rest ih =>
      cases hmh : fs.minihash f with
      | some h0 =>
          simp only [hashFiles, hmh]
          rw [ih]
          simp [List.filter_cons, hmh, List.append_assoc]
      | none =>
          simp only [hashFiles, hmh]
          rw [ih]
          simp [List.filter_cons, hmh, List.append_assoc]

theorem hashFiles_dget (fs : FS) (size : Int) (files : List String)
    (mini : List ((String × Int) × List String)) (st : LsState)
    (hh : String) (s : Int) :
    dget (hashFiles fs size files mini st).1 (hh, s) =
      if s = size then
        dget mini (hh, s) ++
          files.filter (fun f => decide (fs.minihash f = some hh))
      else dget mini (hh, s) := by
  induction files generalizing mini st with
  | nil => by_cases hs : s = size <;> simp [hashFiles, hs]
  | cons f rest ih =>
      cases hmh : fs.minihash f with
      | some h0 =>
          simp only [hashFiles, hmh]
          rw [ih, dget_dictAppend]
          by_cases hs : s = size
          · subst hs
            by_cases hhh : hh = h0
            · subst hhh
              simp [List.filter_cons, hmh, List.append_assoc]
            · simp [List.filter_cons, hmh, Prod.mk.injEq, hhh, Ne.symm hhh]
          · simp [List.filter_cons, hmh, Prod.mk.injEq, hs]
      | none =>
          simp only [hashFiles, hmh]
          rw [ih]
          by_cases hs : s = size <;> simp [List.filter_cons, hmh, hs]

theorem hashFiles_mem (fs : FS) (size : Int) (files : List String)
    (mini : List ((String × Int) × List String)) (st : LsState) :
    ∀ p ∈ (hashFiles fs size files mini st).1, p ∈ mini ∨ p.1.2 = size := by
  induction files generalizing mini st with
  | nil => intro p hp; exact Or.inl (by simpa [hashFiles] using hp)
  | cons f rest ih =>
      intro p hp
      cases hmh : fs.minihash f with
      | some h0 =>
          simp only [hashFiles, hmh] at hp
          rcases ih _ _ p hp with h1 | h1
          · rcases mem_dictAppend h1 with h2 | h2
            · exact Or.inl h2
            · right; rw [h2]
          · exact Or.inr h1
      | none =>
          simp only [hashFiles, hmh] at hp
          exact ih _ _ p hp

theorem hashFiles_dvals_perm (fs : FS) (size : Int) (files : List String)
    (mini : List ((String × Int) × List String)) (st : LsState) :
    (dvals (hashFiles fs size files mini st).1).Perm
      (dvals mini ++ files.filter (fun f => (fs.minihash f).isSome)) := by
  induction files generalizing mini st with
  | nil => simp [hashFiles]
  | cons f rest ih =>
      cases hmh : fs.minihash f with
      | some h0 =>
          simp only [hashFiles, hmh]
          refine (ih _ _).trans ?_
          rw [List.perm_iff_count]
          intro a
          have hda := (dvals_dictAppend mini (h0, size) f).count_eq a
          simp [List.filter_cons, hmh, List.count_append, hda, List.count_cons]
          omega
      | none =>
          simp only [hashFiles, hmh]
          refine (ih _ _).trans ?_
          simp [List.filter_cons, hmh]

theorem hashFiles_keys_nodup (fs : FS) (size : Int) (files : List String)
    (mini : List ((String × Int) × List String)) (st : LsState)
    (hnd : (dkeys mini).Nodup) :
    (dkeys (hashFiles fs size files mini st).1).Nodup := by
  induction files generalizing mini st with
  | nil => simpa [hashFiles] using hnd
  | cons f rest ih =>
      cases hmh : fs.minihash f with
      | some h0 =>
          simp only [hashFiles, hmh]
          exact ih _ _ (dkeys_nodup_dictAppend hnd)
      | none =>
          simp only [hashFiles, hmh]
          exact ih _ _ hnd

theorem hashFiles_nonempty (fs : FS) (size : Int) (files : List String)
    (mini : List ((String × Int) × List String)) (st : LsState)
    (hne : ∀ p ∈ mini, p.2 ≠ []) :
    ∀ p ∈ (hashFiles fs size files mini st).1, p.2 ≠ [] := by
  induction files generalizing mini st with
  | nil => simpa [hashFiles] using hne
  | cons f rest ih =>
      cases hmh : fs.minihash f with
      | some h0 =>
          simp only [hashFiles, hmh]
          exact ih _ _ (dictAppend_nonempty hne)
      | none =>
          simp only [hashFiles, hmh]
          exact ih _ _ hne

/-! ## `hashFullFiles` lemmas (Stage 3 inner loop) -/

theorem hashFullFiles_state (fs : FS) (size : Int) (files : List String)
    (full : List ((String × Int) × List String)) (st : LsState) :
    (hashFullFiles fs size files full st).2 =
      { st with
        hashedFull := st.hashedFull ++ files,
        warns := st.warns ++
          (files.filter (fun f => (fs.fullhash f).isNone)).map warnMsg,
        failed := st.failed ++
          files.filter (fun f => (fs.fullhash f).isNone) } := by
  induction files generalizing full st with
  | nil => simp [hashFullFiles]
  | cons f rest ih =>
      cases hmh : fs.fullhash f with
      | some h0 =>
          simp only [hashFullFiles, hmh]
          rw [ih]
          simp [List.filter_cons, hmh, List.append_assoc]
      | none =>
          simp only [hashFullFiles, hmh]
          rw [ih]
          simp [List.filter_cons, hmh, List.append_assoc]

theorem hashFullFiles_dget (fs : FS) (size : Int) (files : List String)
    (full : List ((String × Int) × List String)) (st : LsState)
    (hh : String) (s : Int) :
    dget (hashFullFiles fs size files full st).1 (hh, s) =
      if s = size then
        dget full (hh, s) ++
          files.filter (fun f => decide (fs.fullhash f = some hh))
      else dget full (hh, s) := by
  induction files generalizing full st with
  | nil => by_cases hs : s = size <;> simp [hashFullFiles, hs]
  | cons f rest ih =>
      cases hmh : fs.fullhash f with
      | some h0 =>
          simp only [hashFullFiles, hmh]
          rw [ih, dget_dictAppend]
          by_cases hs : s = size
          · subst hs
            by_cases hhh : hh = h0
            · subst hhh
              simp [List.filter_cons, hmh, List.append_assoc]
            · simp [List.filter_cons, hmh, Prod.mk.injEq, hhh, Ne.symm hhh]
          · simp [List.filter_cons, hmh, Prod.mk.injEq, hs]
      | none =>
          simp only [hashFullFiles, hmh]
          rw [ih]
          by_cases hs : s = size <;> simp [List.filter_cons, hmh, hs]

theorem hashFullFiles_mem (fs : FS) (size : Int) (files : List String)
    (full : List ((String × Int) × List String)) (st : LsState) :
    ∀ p ∈ (hashFullFiles fs size files full st).1,
      p ∈ full ∨ p.1.2 = size := by
  induction files generalizing full st with
  | nil => intro p hp; exact Or.inl (by simpa [hashFullFiles] using hp)
  | cons f rest ih =>
      intro p hp
      cases hmh : fs.fullhash f with
      | some h0 =>
          simp only [hashFullFiles, hmh] at hp
          rcases ih _ _ p hp with h1 | h1
          · rcases mem_dictAppend h1 with h2 | h2
            · exact Or.inl h2
            · right; rw [h2]
          · exact Or.inr h1
      | none =>
          simp only [hashFullFiles, hmh] at hp
          exact ih _ _ p hp

theorem hashFullFiles_dvals_perm (fs : FS) (size : Int) (files : List String)
    (full : List ((String × Int) × List String)) (st : LsState) :
    (dvals (hashFullFiles fs size files full st).1).Perm
      (dvals full ++ files.filter (fun f => (fs.fullhash f).isSome)) := by
  induction files generalizing full st with
  | nil => simp [hashFullFiles]
  | cons f rest ih =>
      cases hmh : fs.fullhash f with
      | some h0 =>
          simp only [hashFullFiles, hmh]
          refine (ih _ _).trans ?_
          rw [List.perm_iff_count]
          intro a
          have hda := (dvals_dictAppend full (h0, size) f).count_eq a
          simp [List.filter_cons, hmh, List.count_append, hda, List.count_cons]
          omega
      | none =>
          simp only [hashFullFiles, hmh]
          refine (ih _ _).trans ?_
          simp [List.filter_cons, hmh]

theorem hashFullFiles_keys_nodup (fs : FS) (size : Int) (files : List String)
    (full : List ((String × Int) × List String)) (st : LsState)
    (hnd : (dkeys full).Nodup) :
    (dkeys (hashFullFiles fs size files full st).1).Nodup := by
  induction files generalizing full st with
  | nil => simpa [hashFullFiles] using hnd
  | cons f rest ih =>
      cases hmh : fs.fullhash f with
      | some h0 =>
          simp only [hashFullFiles, hmh]
          exact ih _ _ (dkeys_nodup_dictAppend hnd)
      | none =>
          simp only [hashFullFiles, hmh]
          exact ih _ _ hnd

theorem hashFullFiles_nonempty (fs : FS) (size : Int) (files : List String)
    (full : List ((String × Int) × List String)) (st : LsState)
    (hne : ∀ p ∈ full, p.2 ≠ []) :
    ∀ p ∈ (hashFullFiles fs size files full st).1, p.2 ≠ [] := by
  induction files generalizing full st with
  | nil => simpa [hashFullFiles] using hne
  | cons f rest ih =>
      cases hmh : fs.fullhash f with
      | some h0 =>
          simp only [hashFullFiles, hmh]
          exact ih _ _ (dictAppend_nonempty hne)
      | none =>
          simp only [hashFullFiles, hmh]
          exact ih _ _ hne

theorem stage1_nonempty (fs : FS) (files : List String)
    (sizes : List (Int × List String)) (st : LsState)
    (hne : ∀ p ∈ sizes, p.2 ≠ []) :
    ∀ p ∈ (stage1 fs files sizes st).1, p.2 ≠ [] := by
  induction files generalizing sizes st with
  | nil => simpa [stage1] using hne
  | cons f rest ih =>
      cases hgs : fs.getsize f with
      | some sz =>
          simp only [stage1, hgs]
          exact ih _ _ (dictAppend_nonempty hne)
      | none =>
          simp only [stage1, hgs]
          exact ih _ _ hne

/-! ## `stage2` lemmas -/

theorem stage2_main (fs : FS) (sizes : List (Int × List String))
    (mini : List ((String × Int) × List String)) (st : LsState)
    {mini' : List ((String × Int) × List String)} {st' : LsState}
    (h : stage2 fs sizes mini st = some (mini', st')) :
    st'.hashedFull = st.hashedFull ∧
    st'.hashedPart = st.hashedPart ++
      ((sizes.filter (fun p => decide (2 ≤ p.2.length))).map Prod.snd).flatten ∧
    (∃ l, st'.out = st.out ++ l) ∧
    (∃ lf lw, st'.failed = st.failed ++ lf ∧ st'.warns = st.warns ++ lw ∧
      ∀ f ∈ lf, fs.minihash f = none ∧ warnMsg f ∈ lw) := by
  induction sizes generalizing mini st with
  | nil =>
      simp only [stage2, Option.some.injEq, Prod.mk.injEq] at h
      rw [← h.2]
      exact ⟨rfl, by simp, ⟨[], by simp⟩, ⟨[], [], by simp, by simp, by simp⟩⟩
  | cons p rest ih =>
      obtain ⟨size, files⟩ := p
      by_cases hlen : files.length < 2
      · rw [stage2, if_pos hlen] at h
        cases hem : emitGroup fs files.headI [] st with
        | none => rw [hem] at h; cases h
        | some st1 =>
            rw [hem] at h
            obtain ⟨ihF, ihP, ⟨lo, ihO⟩, ⟨lf, lw, ihf, ihw, ihp⟩⟩ := ih _ _ h
            obtain ⟨hf1, hp1, hF1⟩ := emitGroup_fixed hem
            obtain ⟨lo1, ho1⟩ := emitGroup_out_mono hem
            obtain ⟨lw1, hw1⟩ := emitGroup_warns_mono hem
            have hlen2 : ¬ (2 ≤ files.length) := by omega
            refine ⟨by rw [ihF, hF1], ?_, ?_, ?_⟩
            · rw [ihP, hp1]
              simp [List.filter_cons, hlen2]
            · exact ⟨lo1.map (fun e => e) ++ lo, by
                rw [ihO, ho1.1, List.append_assoc]; simp⟩
            · refine ⟨lf, lw1 ++ lw, ?_, ?_, ?_⟩
              · rw [ihf, hf1]
              · rw [ihw, hw1, List.append_assoc]
              · intro f hfm
                obtain ⟨ha, hb⟩ := ihp f hfm
                exact ⟨ha, by simp [hb]⟩
      · rw [stage2, if_neg hlen] at h
        rcases hhf : hashFiles fs size files mini st with ⟨mini1, st1⟩
        rw [hhf] at h
        obtain ⟨ihF, ihP, ⟨lo, ihO⟩, ⟨lf, lw, ihf, ihw, ihp⟩⟩ := ih _ _ h
        have hst1 : st1 = (hashFiles fs size files mini st).2 := by rw [hhf]
        rw [hashFiles_state] at hst1
        have hlen2 : 2 ≤ files.length := by omega
        refine ⟨by rw [ihF, hst1], ?_, ?_, ?_⟩
        · rw [ihP, hst1]
          simp [List.filter_cons, hlen2, List.append_assoc]
        · exact ⟨lo, by rw [ihO, hst1]⟩
        · refine ⟨files.filter (fun f => (fs.minihash f).isNone) ++ lf,
            (files.filter (fun f => (fs.minihash f).isNone)).map warnMsg ++ lw,
            ?_, ?_, ?_⟩
          · rw [ihf, hst1]; simp [List.append_assoc]
          · rw [ihw, hst1]; simp [List.append_assoc]
          · intro f hfm
            rcases List.mem_append.mp hfm with hfm | hfm
            · have := List.mem_filter.mp hfm
              refine ⟨by simpa [Option.isNone_iff_eq_none] using this.2, ?_⟩
              exact List.mem_append_left _ (List.mem_map_of_mem _ hfm)
            · obtain ⟨ha, hb⟩ := ihp f hfm
              exact ⟨ha, List.mem_append_right _ hb⟩

theorem stage2_ledger (fs : FS) (sizes : List (Int × List String))
    (mini : List ((String × Int) × List String)) (st : LsState)
    {mini' : List ((String × Int) × List String)} {st' : LsState}
    (hne : ∀ p ∈ sizes, p.2 ≠ [])
    (h : stage2 fs sizes mini st = some (mini', st')) :
    (ledger st' ++ dvals mini').Perm (ledger st ++ dvals mini ++ dvals sizes) := by
  induction sizes generalizing mini st with
  | nil =>
      simp only [stage2, Option.some.injEq, Prod.mk.injEq] at h
      rw [← h.1, ← h.2]
      simp [dvals]
  | cons p rest ih =>
      obtain ⟨size, files⟩ := p
      by_cases hlen : files.length < 2
      · rw [stage2, if_pos hlen] at h
        cases hem : emitGroup fs files.headI [] st with
        | none => rw [hem] at h; cases h
        | some st1 =>
            rw [hem] at h
            have hfe : files = [files.headI] :=
              short_eq_headI hlen (hne (size, files) (List.mem_cons_self _ _))
            have hih := ih _ _ (fun p hp => hne p (List.mem_cons_of_mem _ hp)) h
            have hel := emitGroup_ledger hem
            rw [List.perm_iff_count]
            intro a
            have c1 := hih.count_eq a
            have c2 := hel.count_eq a
            rw [dvals_cons]
            conv_rhs => rw [hfe]
            simp only [List.count_append] at c1 c2 ⊢
            simp only [List.count_cons, List.count_nil] at c2 ⊢
            omega
      · rw [stage2, if_neg hlen] at h
        rcases hhf : hashFiles fs size files mini st with ⟨mini1, st1⟩
        rw [hhf] at h
        have hih := ih _ _ (fun p hp => hne p (List.mem_cons_of_mem _ hp)) h
        have hst1 : st1 = (hashFiles fs size files mini st).2 := by rw [hhf]
        rw [hashFiles_state] at hst1
        have hdv : dvals mini1 = dvals (hashFiles fs size files mini st).1 := by
          rw [hhf]
        have hperm := hashFiles_dvals_perm fs size files mini st
        rw [← hdv] at hperm
        rw [List.perm_iff_count]
        intro a
        have c1 := hih.count_eq a
        have c2 := hperm.count_eq a
        have c3 : List.count a files =
            List.count a (files.filter (fun f => (fs.minihash f).isSome)) +
            List.count a (files.filter (fun f => (fs.minihash f).isNone)) := by
          rw [List.perm_iff_count] at *
          have := (List.filter_append_perm (fun f => (fs.minihash f).isSome) files).count_eq a
          simp only [List.count_append] at this
          have hcompl : files.filter (fun f => !(fs.minihash f).isSome) =
              files.filter (fun f => (fs.minihash f).isNone) := by
            apply List.filter_congr
            intro x _
            cases fs.minihash x <;> simp
          rw [hcompl] at this
          omega
        have hled : ledger st1 = groupFiles st ++
            (st.failed ++ files.filter (fun f => (fs.minihash f).isNone)) ++
            st.dropped := by
          rw [hst1]
          simp [ledger, groupFiles]
        rw [dvals_cons]
        rw [hled] at c1
        simp only [ledger, List.count_append] at c1 c2 ⊢
        omega

theorem stage2_keys_nodup (fs : FS) (sizes : List (Int × List String))
    (mini : List ((String × Int) × List String)) (st : LsState)
    {mini' : List ((String × Int) × List String)} {st' : LsState}
    (hnd : (dkeys mini).Nodup)
    (h : stage2 fs sizes mini st = some (mini', st')) :
    (dkeys mini').Nodup := by
  induction sizes generalizing mini st with
  | nil =>
      simp only [stage2, Option.some.injEq, Prod.mk.injEq] at h
      rw [← h.1]; exact hnd
  | cons p rest ih =>
      obtain ⟨size, files⟩ := p
      by_cases hlen : files.length < 2
      · rw [stage2, if_pos hlen] at h
        cases hem : emitGroup fs files.headI [] st with
        | none => rw [hem] at h; cases h
        | some st1 =>
            rw [hem] at h
            exact ih _ _ hnd h
      · rw [stage2, if_neg hlen] at h
        rcases hhf : hashFiles fs size files mini st with ⟨mini1, st1⟩
        rw [hhf] at h
        have : mini1 = (hashFiles fs size files mini st).1 := by rw [hhf]
        refine ih _ _ ?_ h
        rw [this]
        exact hashFiles_keys_nodup fs size files mini st hnd

theorem stage2_nonempty (fs : FS) (sizes : List (Int × List String))
    (mini : List ((String × Int) × List String)) (st : LsState)
    {mini' : List ((String × Int) × List String)} {st' : LsState}
    (hne : ∀ p ∈ mini, p.2 ≠ [])
    (h : stage2 fs sizes mini st = some (mini', st')) :
    ∀ p ∈ mini', p.2 ≠ [] := by
  induction sizes generalizing mini st with
  | nil =>
      simp only [stage2, Option.some.injEq, Prod.mk.injEq] at h
      rw [← h.1]; exact hne
  | cons p rest ih =>
      obtain ⟨size, files⟩ := p
      by_cases hlen : files.length < 2
      · rw [stage2, if_pos hlen] at h
        cases hem : emitGroup fs files.headI [] st with
        | none => rw [hem] at h; cases h
        | some st1 =>
            rw [hem] at h
            exact ih _ _ hne h
      · rw [stage2, if_neg hlen] at h
        rcases hhf : hashFiles fs size files mini st with ⟨mini1, st1⟩
        rw [hhf] at h
        have : mini1 = (hashFiles fs size files mini st).1 := by rw [hhf]
        refine ih _ _ ?_ h
        rw [this]
        exact hashFiles_nonempty fs size files mini st hne

theorem stage2_mem (fs : FS) (sizes : List (Int × List String))
    (mini : List ((String × Int) × List String)) (st : LsState)
    {mini' : List ((String × Int) × List String)} {st' : LsState}
    (h : stage2 fs sizes mini st = some (mini', st')) :
    ∀ p ∈ mini', p ∈ mini ∨ p.1.2 ∈ dkeys sizes := by
  induction sizes generalizing mini st with
  | nil =>
      simp only [stage2, Option.some.injEq, Prod.mk.injEq] at h
      intro p hp
      rw [← h.1] at hp
      exact Or.inl hp
  | cons q rest ih =>
      obtain ⟨size, files⟩ := q
      by_cases hlen : files.length < 2
      · rw [stage2, if_pos hlen] at h
        cases hem : emitGroup fs files.headI [] st with
        | none => rw [hem] at h; cases h
        | some st1 =>
            rw [hem] at h
            intro p hp
            rcases ih _ _ h p hp with h1 | h1
            · exact Or.inl h1
            · exact Or.inr (by simpa [dkeys] using Or.inr (by simpa [dkeys] using h1))
      · rw [stage2, if_neg hlen] at h
        rcases hhf : hashFiles fs size files mini st with ⟨mini1, st1⟩
        rw [hhf] at h
        intro p hp
        rcases ih _ _ h p hp with h1 | h1
        · have hm1 : mini1 = (hashFiles fs size files mini st).1 := by rw [hhf]
          rw [hm1] at h1
          rcases hashFiles_mem fs size files mini st p h1 with h2 | h2
          · exact Or.inl h2
          · exact Or.inr (by simp [dkeys, h2])
        · exact Or.inr (by simpa [dkeys] using Or.inr (by simpa [dkeys] using h1))

theorem stage2_dget (fs : FS) (sizes : List (Int × List String))
    (mini : List ((String × Int) × List String)) (st : LsState)
    {mini' : List ((String × Int) × List String)} {st' : LsState}
    (hnd : (dkeys sizes).Nodup)
    (hcl : ∀ p ∈ mini, p.1.2 ∉ dkeys sizes)
    (h : stage2 fs sizes mini st = some (mini', st')) (hh : String) (s : Int) :
    dget mini' (hh, s) = dget mini (hh, s) ++
      (if 2 ≤ (dget sizes s).length then
        (dget sizes s).filter (fun f => decide (fs.minihash f = some hh))
      else []) := by
  induction sizes generalizing mini st with
  | nil =>
      simp only [stage2, Option.some.injEq, Prod.mk.injEq] at h
      rw [← h.1]
      simp [dget]
  | cons q rest ih =>
      obtain ⟨size, files⟩ := q
      have hndr : (dkeys rest).Nodup := by
        rw [dkeys, List.map_cons, List.nodup_cons] at hnd
        exact hnd.2
      have hsz : size ∉ dkeys rest := by
        rw [dkeys, List.map_cons, List.nodup_cons] at hnd
        exact hnd.1
      by_cases hlen : files.length < 2
      · rw [stage2, if_pos hlen] at h
        cases hem : emitGroup fs files.headI [] st with
        | none => rw [hem] at h; cases h
        | some st1 =>
            rw [hem] at h
            have hclr : ∀ p ∈ mini, p.1.2 ∉ dkeys rest := by
              intro p hp hmem
              exact hcl p hp (by simp [dkeys] at hmem ⊢; exact Or.inr hmem)
            have hihf := ih _ _ hndr hclr h
            by_cases hseq : size = s
            · subst hseq
              have hrest : dget rest size = [] := dget_eq_nil_of_not_mem hsz
              rw [hihf]
              simp only [dget, if_pos rfl]
              rw [hrest]
              have h1 : ¬ 2 ≤ files.length := by omega
              simp [h1]
            · rw [hihf]
              simp only [dget, if_neg hseq]
      · rw [stage2, if_neg hlen] at h
        rcases hhf : hashFiles fs size files mini st with ⟨mini1, st1⟩
        rw [hhf] at h
        have hm1 : mini1 = (hashFiles fs size files mini st).1 := by rw [hhf]
        have hclr : ∀ p ∈ mini1, p.1.2 ∉ dkeys rest := by
          intro p hp hmem
          rw [hm1] at hp
          rcases hashFiles_mem fs size files mini st p hp with h2 | h2
          · exact hcl p h2 (by simp [dkeys] at hmem ⊢; exact Or.inr hmem)
          · rw [h2] at hmem; exact hsz hmem
        have hihf := ih _ _ hndr hclr h
        by_cases hseq : size = s
        · subst hseq
          have hrest : dget rest size = [] := dget_eq_nil_of_not_mem hsz
          rw [hihf, hm1, hashFiles_dget]
          simp only [if_pos rfl]
          rw [hrest]
          have h1 : 2 ≤ files.length := by omega
          simp only [dget, if_pos rfl]
          simp [h1]
        · rw [hihf, hm1, hashFiles_dget]
          simp only [dget, if_neg hseq]
          have : ¬ s = size := fun hc => hseq hc.symm
          simp [this]

theorem headI_mem_self {l : List String} (h : l ≠ []) : l.headI ∈ l := by
  cases l with
  | nil => exact absurd rfl h
  | cons a t => exact List.mem_cons_self _ _

theorem headI_cons_tail {l : List String} (h : l ≠ []) :
    l.headI :: l.tail = l := by
  cases l with
  | nil => exact absurd rfl h
  | cons a t => rfl

theorem stage2_singleton_emit (fs : FS) (sizes : List (Int × List String))
    (mini : List ((String × Int) × List String)) (st : LsState)
    {mini' : List ((String × Int) × List String)} {st' : LsState}
    {s : Int} {f : String} {sr : StatRes}
    (hmem : (s, [f]) ∈ sizes)
    (h : stage2 fs sizes mini st = some (mini', st'))
    (hstat : fs.stat f = some sr) :
    ∃ e ∈ st'.out, e.rep = f ∧ e.dups = [] := by
  induction sizes generalizing mini st with
  | nil => simp at hmem
  | cons q rest ih =>
      obtain ⟨size, files⟩ := q
      rcases List.mem_cons.mp hmem with hq | hq
      · injection hq with hq1 hq2
        subst hq1
        subst hq2
        have hlen : ([f] : List String).length < 2 := by simp
        rw [stage2, if_pos hlen] at h
        cases hem : emitGroup fs ([f] : List String).headI [] st with
        | none => rw [hem] at h; cases h
        | some st1 =>
            rw [hem] at h
            rcases emitGroup_cases hem with ⟨u, w, hfs, rfl⟩ | ⟨info, u, w, hfs, hne, rfl⟩
            · exfalso
              have : (file_stats fs ([f] : List String).headI st.users).1 = some [] := by
                rw [hfs]
              rw [file_stats_empty_iff] at this
              simp only [List.headI] at this
              rw [hstat] at this
              cases this
            · obtain ⟨_, _, ⟨lo, ho⟩, _⟩ := stage2_main fs rest mini _ h
              refine ⟨⟨info, ([f] : List String).headI, []⟩, ?_, by simp [List.headI], rfl⟩
              rw [ho]
              exact List.mem_append_left _ (by simp)
      · by_cases hlen : files.length < 2
        · rw [stage2, if_pos hlen] at h
          cases hem : emitGroup fs files.headI [] st with
          | none => rw [hem] at h; cases h
          | some st1 =>
              rw [hem] at h
              exact ih _ _ hq h
        · rw [stage2, if_neg hlen] at h
          rcases hhf : hashFiles fs size files mini st with ⟨mini1, st1⟩
          rw [hhf] at h
          exact ih _ _ hq h

theorem emitGroup_OutOK {fs : FS} {files : List String} {rep : String}
    {dups : List String} {st st' : LsState}
    (hsub : (rep :: dups).Sublist files)
    (h : emitGroup fs rep dups st = some st')
    (hok : OutOK fs files st) : OutOK fs files st' := by
  intro e he
  obtain ⟨l, hl, hprop⟩ := emitGroup_out_mono h
  rw [hl] at he
  rcases List.mem_append.mp he with he1 | he1
  · exact hok e he1
  · obtain ⟨hrep, hdups, hinfo, hne⟩ := hprop e he1
    constructor
    · rw [hrep, hdups]; exact hsub
    · obtain ⟨sr, hs, own, grpn, h1, h2, h3⟩ :=
        file_stats_shape fs rep st.users hinfo hne
      exact ⟨sr, hs, own, grpn, by rw [hrep]; exact h1, h2, h3⟩

theorem stage2_OutOK (fs : FS) (files : List String)
    (sizes : List (Int × List String))
    (mini : List ((String × Int) × List String)) (st : LsState)
    {mini' : List ((String × Int) × List String)} {st' : LsState}
    (hb : ∀ p ∈ sizes, p.2 ≠ [] ∧ ∀ f ∈ p.2, f ∈ files)
    (hok : OutOK fs files st)
    (h : stage2 fs sizes mini st = some (mini', st')) :
    OutOK fs files st' := by
  induction sizes generalizing mini st with
  | nil =>
      simp only [stage2, Option.some.injEq, Prod.mk.injEq] at h
      rw [← h.2]; exact hok
  | cons q rest ih =>
      obtain ⟨size, fls⟩ := q
      have hbr : ∀ p ∈ rest, p.2 ≠ [] ∧ ∀ f ∈ p.2, f ∈ files :=
        fun p hp => hb p (List.mem_cons_of_mem _ hp)
      have hbq := hb (size, fls) (List.mem_cons_self _ _)
      by_cases hlen : fls.length < 2
      · rw [stage2, if_pos hlen] at h
        cases hem : emitGroup fs fls.headI [] st with
        | none => rw [hem] at h; cases h
        | some st1 =>
            rw [hem] at h
            have hsub : ((fls.headI : String) :: ([] : List String)).Sublist files := by
              rw [List.singleton_sublist]
              exact hbq.2 _ (headI_mem_self hbq.1)
            exact ih _ _ hbr (emitGroup_OutOK hsub hem hok) h
      · rw [stage2, if_neg hlen] at h
        rcases hhf : hashFiles fs size fls mini st with ⟨mini1, st1⟩
        rw [hhf] at h
        have hst1 : st1 = (hashFiles fs size fls mini st).2 := by rw [hhf]
        have hok1 : OutOK fs files st1 := by
          intro e he
          rw [hst1, hashFiles_state] at he
          exact hok e he
        exact ih _ _ hbr hok1 h

/-! ## `stage3` lemmas -/

theorem stage3_main (fs : FS) (mini : List ((String × Int) × List String))
    (full : List ((String × Int) × List String)) (st : LsState)
    {full' : List ((String × Int) × List String)} {st' : LsState}
    (h : stage3 fs mini full st = some (full', st')) :
    st'.hashedPart = st.hashedPart ∧
    st'.hashedFull = st.hashedFull ++
      ((mini.filter (fun p => decide (2 ≤ p.2.length))).map Prod.snd).flatten ∧
    (∃ l, st'.out = st.out ++ l) ∧
    (∃ lf lw, st'.failed = st.failed ++ lf ∧ st'.warns = st.warns ++ lw ∧
      ∀ f ∈ lf, fs.fullhash f = none ∧ warnMsg f ∈ lw) := by
  induction mini generalizing full st with
  | nil =>
      simp only [stage3, Option.some.injEq, Prod.mk.injEq] at h
      rw [← h.2]
      exact ⟨rfl, by simp, ⟨[], by simp⟩, ⟨[], [], by simp, by simp, by simp⟩⟩
  | cons p rest ih =>
      obtain ⟨⟨hh0, size⟩, files⟩ := p
      by_cases hlen : files.length < 2
      · rw [stage3, if_pos hlen] at h
        cases hem : emitGroup fs files.headI [] st with
        | none => rw [hem] at h; cases h
        | some st1 =>
            rw [hem] at h
            obtain ⟨ihP, ihF, ⟨lo, ihO⟩, ⟨lf, lw, ihf, ihw, ihp⟩⟩ := ih _ _ h
            obtain ⟨hf1, hp1, hF1⟩ := emitGroup_fixed hem
            obtain ⟨lo1, ho1⟩ := emitGroup_out_mono hem
            obtain ⟨lw1, hw1⟩ := emitGroup_warns_mono hem
            have hlen2 : ¬ (2 ≤ files.length) := by omega
            refine ⟨by rw [ihP, hp1], ?_, ?_, ?_⟩
            · rw [ihF, hF1]
              simp [List.filter_cons, hlen2]
            · exact ⟨lo1 ++ lo, by rw [ihO, ho1.1, List.append_assoc]⟩
            · refine ⟨lf, lw1 ++ lw, ?_, ?_, ?_⟩
              · rw [ihf, hf1]
              · rw [ihw, hw1, List.append_assoc]
              · intro f hfm
                obtain ⟨ha, hb⟩ := ihp f hfm
                exact ⟨ha, by simp [hb]⟩
      · rw [stage3, if_neg hlen] at h
        rcases hhf : hashFullFiles fs size files full st with ⟨full1, st1⟩
        rw [hhf] at h
        obtain ⟨ihP, ihF, ⟨lo, ihO⟩, ⟨lf, lw, ihf, ihw, ihp⟩⟩ := ih _ _ h
        have hst1 : st1 = (hashFullFiles fs size files full st).2 := by rw [hhf]
        rw [hashFullFiles_state] at hst1
        have hlen2 : 2 ≤ files.length := by omega
        refine ⟨by rw [ihP, hst1], ?_, ?_, ?_⟩
        · rw [ihF, hst1]
          simp [List.filter_cons, hlen2, List.append_assoc]
        · exact ⟨lo, by rw [ihO, hst1]⟩
        · refine ⟨files.filter (fun f => (fs.fullhash f).isNone) ++ lf,
            (files.filter (fun f => (fs.fullhash f).isNone)).map warnMsg ++ lw,
            ?_, ?_, ?_⟩
          · rw [ihf, hst1]; simp [List.append_assoc]
          · rw [ihw, hst1]; simp [List.append_assoc]
          · intro f hfm
            rcases List.mem_append.mp hfm with hfm | hfm
            · have := List.mem_filter.mp hfm
              refine ⟨by simpa [Option.isNone_iff_eq_none] using this.2, ?_⟩
              exact List.mem_append_left _ (List.mem_map_of_mem _ hfm)
            · obtain ⟨ha, hb⟩ := ihp f hfm
              exact ⟨ha, List.mem_append_right _ hb⟩

theorem stage3_ledger (fs : FS) (mini : List ((String × Int) × List String))
    (full : List ((String × Int) × List String)) (st : LsState)
    {full' : List ((String × Int) × List String)} {st' : LsState}
    (hne : ∀ p ∈ mini, p.2 ≠ [])
    (h : stage3 fs mini full st = some (full', st')) :
    (ledger st' ++ dvals full').Perm (ledger st ++ dvals full ++ dvals mini) := by
  induction mini generalizing full st with
  | nil =>
      simp only [stage3, Option.some.injEq, Prod.mk.injEq] at h
      rw [← h.1, ← h.2]
      simp [dvals]
  | cons p rest ih =>
      obtain ⟨⟨hh0, size⟩, files⟩ := p
      by_cases hlen : files.length < 2
      · rw [stage3, if_pos hlen] at h
        cases hem : emitGroup fs files.headI [] st with
        | none => rw [hem] at h; cases h
        | some st1 =>
            rw [hem] at h
            have hfe : files = [files.headI] :=
              short_eq_headI hlen (hne ((hh0, size), files) (List.mem_cons_self _ _))
            have hih := ih _ _ (fun p hp => hne p (List.mem_cons_of_mem _ hp)) h
            have hel := emitGroup_ledger hem
            rw [List.perm_iff_count]
            intro a
            have c1 := hih.count_eq a
            have c2 := hel.count_eq a
            rw [dvals_cons]
            conv_rhs => rw [hfe]
            simp only [List.count_append] at c1 c2 ⊢
            simp only [List.count_cons, List.count_nil] at c2 ⊢
            omega
      · rw [stage3, if_neg hlen] at h
        rcases hhf : hashFullFiles fs size files full st with ⟨full1, st1⟩
        rw [hhf] at h
        have hih := ih _ _ (fun p hp => hne p (List.mem_cons_of_mem _ hp)) h
        have hst1 : st1 = (hashFullFiles fs size files full st).2 := by rw [hhf]
        rw [hashFullFiles_state] at hst1
        have hdv : dvals full1 = dvals (hashFullFiles fs size files full st).1 := by
          rw [hhf]
        have hperm := hashFullFiles_dvals_perm fs size files full st
        rw [← hdv] at hperm
        rw [List.perm_iff_count]
        intro a
        have c1 := hih.count_eq a
        have c2 := hperm.count_eq a
        have c3 : List.count a files =
            List.count a (files.filter (fun f => (fs.fullhash f).isSome)) +
            List.count a (files.filter (fun f => (fs.fullhash f).isNone)) := by
          have := (List.filter_append_perm (fun f => (fs.fullhash f).isSome) files).count_eq a
          simp only [List.count_append] at this
          have hcompl : files.filter (fun f => !(fs.fullhash f).isSome) =
              files.filter (fun f => (fs.fullhash f).isNone) := by
            apply List.filter_congr
            intro x _
            cases fs.fullhash x <;> simp
          rw [hcompl] at this
          omega
        have hled : ledger st1 = groupFiles st ++
            (st.failed ++ files.filter (fun f => (fs.fullhash f).isNone)) ++
            st.dropped := by
          rw [hst1]
          simp [ledger, groupFiles]
        rw [dvals_cons]
        rw [hled] at c1
        simp only [ledger, List.count_append] at c1 c2 ⊢
        omega

theorem stage3_singleton_emit (fs : FS)
    (mini : List ((String × Int) × List String))
    (full : List ((String × Int) × List String)) (st : LsState)
    {full' : List ((String × Int) × List String)} {st' : LsState}
    {k : String × Int} {f : String} {sr : StatRes}
    (hmem : (k, [f]) ∈ mini)
    (h : stage3 fs mini full st = some (full', st'))
    (hstat : fs.stat f = some sr) :
    ∃ e ∈ st'.out, e.rep = f ∧ e.dups = [] := by
  induction mini generalizing full st with
  | nil => simp at hmem
  | cons q rest ih =>
      obtain ⟨⟨hh0, size⟩, files⟩ := q
      rcases List.mem_cons.mp hmem with hq | hq
      · injection hq with hq1 hq2
        subst hq2
        have hlen : ([f] : List String).length < 2 := by simp
        rw [stage3, if_pos hlen] at h
        cases hem : emitGroup fs ([f] : List String).headI [] st with
        | none => rw [hem] at h; cases h
        | some st1 =>
            rw [hem] at h
            rcases emitGroup_cases hem with ⟨u, w, hfs, rfl⟩ | ⟨info, u, w, hfs, hne, rfl⟩
            · exfalso
              have : (file_stats fs ([f] : List String).headI st.users).1 = some [] := by
                rw [hfs]
              rw [file_stats_empty_iff] at this
              simp only [List.headI] at this
              rw [hstat] at this
              cases this
            · obtain ⟨_, _, ⟨lo, ho⟩, _⟩ := stage3_main fs rest full _ h
              refine ⟨⟨info, ([f] : List String).headI, []⟩, ?_, by simp [List.headI], rfl⟩
              rw [ho]
              exact List.mem_append_left _ (by simp)
      · by_cases hlen : files.length < 2
        · rw [stage3, if_pos hlen] at h
          cases hem : emitGroup fs files.headI [] st with
          | none => rw [hem] at h; cases h
          | some st1 =>
              rw [hem] at h
              exact ih _ _ hq h
        · rw [stage3, if_neg hlen] at h
          rcases hhf : hashFullFiles fs size files full st with ⟨full1, st1⟩
          rw [hhf] at h
          exact ih _ _ hq h

theorem stage3_keys_nodup (fs : FS) (mini : List ((String × Int) × List String))
    (full : List ((String × Int) × List String)) (st : LsState)
    {full' : List ((String × Int) × List String)} {st' : LsState}
    (hnd : (dkeys full).Nodup)
    (h : stage3 fs mini full st = some (full', st')) :
    (dkeys full').Nodup := by
  induction mini generalizing full st with
  | nil =>
      simp only [stage3, Option.some.injEq, Prod.mk.injEq] at h
      rw [← h.1]; exact hnd
  | cons p rest ih =>
      obtain ⟨⟨hh0, size⟩, files⟩ := p
      by_cases hlen : files.length < 2
      · rw [stage3, if_pos hlen] at h
        cases hem : emitGroup fs files.headI [] st with
        | none => rw [hem] at h; cases h
        | some st1 =>
            rw [hem] at h
            exact ih _ _ hnd h
      · rw [stage3, if_neg hlen] at h
        rcases hhf : hashFullFiles fs size files full st with ⟨full1, st1⟩
        rw [hhf] at h
        have : full1 = (hashFullFiles fs size files full st).1 := by rw [hhf]
        refine ih _ _ ?_ h
        rw [this]
        exact hashFullFiles_keys_nodup fs size files full st hnd

theorem stage3_full_nonempty (fs : FS)
    (mini : List ((String × Int) × List String))
    (full : List ((String × Int) × List String)) (st : LsState)
    {full' : List ((String × Int) × List String)} {st' : LsState}
    (hne : ∀ p ∈ full, p.2 ≠ [])
    (h : stage3 fs mini full st = some (full', st')) :
    ∀ p ∈ full', p.2 ≠ [] := by
  induction mini generalizing full st with
  | nil =>
      simp only [stage3, Option.some.injEq, Prod.mk.injEq] at h
      rw [← h.1]; exact hne
  | cons p rest ih =>
      obtain ⟨⟨hh0, size⟩, files⟩ := p
      by_cases hlen : files.length < 2
      · rw [stage3, if_pos hlen] at h
        cases hem : emitGroup fs files.headI [] st with
        | none => rw [hem] at h; cases h
        | some st1 =>
            rw [hem] at h
            exact ih _ _ hne h
      · rw [stage3, if_neg hlen] at h
        rcases hhf : hashFullFiles fs size files full st with ⟨full1, st1⟩
        rw [hhf] at h
        have : full1 = (hashFullFiles fs size files full st).1 := by rw [hhf]
        refine ih _ _ ?_ h
        rw [this]
        exact hashFullFiles_nonempty fs size files full st hne

/-! ## `stage4` lemmas -/

theorem stage4_main (fs : FS) (full : List ((String × Int) × List String))
    (st : LsState) {st' : LsState} (h : stage4 fs full st = some st') :
    st'.hashedPart = st.hashedPart ∧ st'.hashedFull = st.hashedFull ∧
    st'.failed = st.failed ∧ (∃ l, st'.out = st.out ++ l) ∧
    (∃ l, st'.warns = st.warns ++ l) := by
  induction full generalizing st with
  | nil =>
      simp only [stage4, Option.some.injEq] at h
      rw [← h]
      exact ⟨rfl, rfl, rfl, ⟨[], by simp⟩, ⟨[], by simp⟩⟩
  | cons p rest ih =>
      obtain ⟨key, files⟩ := p
      rw [stage4] at h
      cases hem : emitGroup fs files.headI files.tail st with
      | none => rw [hem] at h; cases h
      | some st1 =>
          rw [hem] at h
          obtain ⟨ihP, ihF, ihf, ⟨lo, ihO⟩, ⟨lw, ihw⟩⟩ := ih _ h
          obtain ⟨hf1, hp1, hF1⟩ := emitGroup_fixed hem
          obtain ⟨lo1, ho1⟩ := emitGroup_out_mono hem
          obtain ⟨lw1, hw1⟩ := emitGroup_warns_mono hem
          exact ⟨by rw [ihP, hp1], by rw [ihF, hF1], by rw [ihf, hf1],
            ⟨lo1 ++ lo, by rw [ihO, ho1.1, List.append_assoc]⟩,
            ⟨lw1 ++ lw, by rw [ihw, hw1, List.append_assoc]⟩⟩

theorem stage4_ledger (fs : FS) (full : List ((String × Int) × List String))
    (st : LsState) {st' : LsState}
    (hne : ∀ p ∈ full, p.2 ≠ [])
    (h : stage4 fs full st = some st') :
    (ledger st').Perm (ledger st ++ dvals full) := by
  induction full generalizing st with
  | nil =>
      simp only [stage4, Option.some.injEq] at h
      rw [← h]
      simp [dvals]
  | cons p rest ih =>
      obtain ⟨key, files⟩ := p
      rw [stage4] at h
      cases hem : emitGroup fs files.headI files.tail st with
      | none => rw [hem] at h; cases h
      | some st1 =>
          rw [hem] at h
          have hih := ih _ (fun p hp => hne p (List.mem_cons_of_mem _ hp)) h
          have hel := emitGroup_ledger hem
          have hfe : files.headI :: files.tail = files :=
            headI_cons_tail (hne (key, files) (List.mem_cons_self _ _))
          rw [hfe] at hel
          rw [List.perm_iff_count]
          intro a
          have c1 := hih.count_eq a
          have c2 := hel.count_eq a
          rw [dvals_cons]
          simp only [List.count_append] at c1 c2 ⊢
          omega

theorem stage4_OutOK (fs : FS) (files : List String)
    (full : List ((String × Int) × List String)) (st : LsState) {st' : LsState}
    (hb : ∀ p ∈ full, p.2 ≠ [] ∧ p.2.Sublist files)
    (hok : OutOK fs files st)
    (h : stage4 fs full st = some st') : OutOK fs files st' := by
  induction full generalizing st with
  | nil =>
      simp only [stage4, Option.some.injEq] at h
      rw [← h]; exact hok
  | cons p rest ih =>
      obtain ⟨key, fls⟩ := p
      rw [stage4] at h
      cases hem : emitGroup fs fls.headI fls.tail st with
      | none => rw [hem] at h; cases h
      | some st1 =>
          rw [hem] at h
          have hbq := hb (key, fls) (List.mem_cons_self _ _)
          have hsub : (fls.headI :: fls.tail).Sublist files := by
            rw [headI_cons_tail hbq.1]
            exact hbq.2
          exact ih _ (fun p hp => hb p (List.mem_cons_of_mem _ hp))
            (emitGroup_OutOK hsub hem hok) h

/-! ## The Stage 3 bucket invariant

During Stage 3, every bucket of the `full_hashes` dictionary receives files
from only one `mini_hashes` bucket (under the collision-freedom assumption
`HashConsistent`), so its member list stays an ordered sublist of the
traversed files. -/

theorem hashFullFiles_inv (fs : FS) (files : List String)
    (restKeys : List (String × Int)) (s : Int) (hh : String)
    (vs : List String) (full : List ((String × Int) × List String))
    (st : LsState)
    (hvs : ∀ f ∈ vs, fs.getsize f = some s ∧ fs.minihash f = some hh)
    (hsub : vs.Sublist files)
    (hinv : InnerInv fs files restKeys s hh vs full) :
    InnerInv fs files restKeys s hh [] (hashFullFiles fs s vs full st).1 := by
  induction vs generalizing full st with
  | nil => simpa [hashFullFiles] using hinv
  | cons f rem ih =>
      have hsubr : rem.Sublist files := (List.sublist_cons_self f rem).trans hsub
      have hvsr : ∀ g ∈ rem, fs.getsize g = some s ∧ fs.minihash g = some hh :=
        fun g hg => hvs g (List.mem_cons_of_mem _ hg)
      have hvf := hvs f (List.mem_cons_self _ _)
      cases hF : fs.fullhash f with
      | none =>
          simp only [hashFullFiles, hF]
          apply ih _ _ hvsr hsubr
          intro p hp
          obtain ⟨h1, h2, h3⟩ := hinv p hp
          refine ⟨h1, h2, ?_⟩
          rcases h3 with ⟨hps, htag, hsb⟩ | ⟨hsb, htag, hnf⟩
          · left
            refine ⟨hps, htag, ?_⟩
            have heq : (f :: rem).filter
                (fun g => decide (fs.fullhash g = some p.1.1)) =
                rem.filter (fun g => decide (fs.fullhash g = some p.1.1)) := by
              simp [List.filter_cons, hF]
            rw [heq] at hsb
            exact hsb
          · right
            exact ⟨hsb, htag, fun g hg => hnf g (List.mem_cons_of_mem _ hg)⟩
      | some H =>
          simp only [hashFullFiles, hF]
          apply ih _ _ hvsr hsubr
          intro p hp
          rcases mem_dictAppend hp with hpold | hpnew
          · obtain ⟨h1, h2, h3⟩ := hinv p hpold
            refine ⟨h1, h2, ?_⟩
            rcases h3 with ⟨hps, htag, hsb⟩ | ⟨hsb, htag, hnf⟩
            · left
              refine ⟨hps, htag, ?_⟩
              refine List.Sublist.trans ?_ hsb
              apply List.Sublist.append_left
              by_cases hc : fs.fullhash f = some p.1.1
              · have heq2 : (f :: rem).filter
                    (fun g => decide (fs.fullhash g = some p.1.1)) =
                    f :: rem.filter
                      (fun g => decide (fs.fullhash g = some p.1.1)) := by
                  simp [List.filter_cons, hc]
                rw [heq2]
                exact List.sublist_cons_self _ _
              · have heq2 : (f :: rem).filter
                    (fun g => decide (fs.fullhash g = some p.1.1)) =
                    rem.filter
                      (fun g => decide (fs.fullhash g = some p.1.1)) := by
                  simp [List.filter_cons, hc]
                rw [heq2]
            · right
              exact ⟨hsb, htag, fun g hg => hnf g (List.mem_cons_of_mem _ hg)⟩
          · set B := dget full (H, s) with hB
            by_cases hBe : B = []
            · subst hpnew
              rw [hBe]
              refine ⟨by simp, ?_, ?_⟩
              · intro g hg
                simp only [List.nil_append, List.mem_singleton] at hg
                subst hg
                exact ⟨hvf.1, hF⟩
              · left
                refine ⟨rfl, ?_, ?_⟩
                · intro g hg
                  simp only [List.nil_append, List.mem_singleton] at hg
                  subst hg
                  exact hvf.2
                · have : (([] : List String) ++ [f]) ++ rem.filter
                      (fun g => decide (fs.fullhash g = some H)) =
                      (f :: rem).filter
                        (fun g => decide (fs.fullhash g = some H)) := by
                    simp [List.filter_cons, hF]
                  rw [this]
                  exact (List.filter_sublist _).trans hsub
            · have hq : ((H, s), B) ∈ full := hB ▸ dget_mem hBe
              obtain ⟨q1, q2, q3⟩ := hinv _ hq
              rcases q3 with ⟨hps, htag, hsb⟩ | ⟨hsb2, htag2, hnf2⟩
              · subst hpnew
                refine ⟨by simp, ?_, ?_⟩
                · intro g hg
                  rcases List.mem_append.mp hg with hg1 | hg1
                  · exact q2 g hg1
                  · rw [List.mem_singleton] at hg1
                    subst hg1
                    exact ⟨hvf.1, hF⟩
                · left
                  refine ⟨rfl, ?_, ?_⟩
                  · intro g hg
                    rcases List.mem_append.mp hg with hg1 | hg1
                    · exact htag g hg1
                    · rw [List.mem_singleton] at hg1
                      subst hg1
                      exact hvf.2
                  · have : ((B ++ [f]) : List String) ++ rem.filter
                        (fun g => decide (fs.fullhash g = some H)) =
                        B ++ (f :: rem).filter
                          (fun g => decide (fs.fullhash g = some H)) := by
                      simp [List.filter_cons, hF, List.append_assoc]
                    rw [this]
                    exact hsb
              · exfalso
                exact hnf2 f (List.mem_cons_self _ _) ⟨hF, rfl⟩

theorem stage3_FullInv (fs : FS) (files : List String)
    (mini : List ((String × Int) × List String))
    (full : List ((String × Int) × List String)) (st : LsState)
    {full' : List ((String × Int) × List String)} {st' : LsState}
    (hcons : HashConsistent fs)
    (hmini : ∀ q ∈ mini, q.2.Sublist files ∧
        ∀ f ∈ q.2, fs.getsize f = some q.1.2 ∧ fs.minihash f = some q.1.1)
    (hnd : (dkeys mini).Nodup)
    (hinv : FullInv fs files mini full)
    (h : stage3 fs mini full st = some (full', st')) :
    FullInv fs files [] full' := by
  induction mini generalizing full st with
  | nil =>
      simp only [stage3, Option.some.injEq, Prod.mk.injEq] at h
      rw [← h.1]
      exact hinv
  | cons q rest ih =>
      obtain ⟨⟨hh0, size⟩, vs⟩ := q
      have hndr : (dkeys rest).Nodup := by
        rw [dkeys, List.map_cons, List.nodup_cons] at hnd
        exact hnd.2
      have hhd : ((hh0, size) : String × Int) ∉ dkeys rest := by
        rw [dkeys, List.map_cons, List.nodup_cons] at hnd
        exact hnd.1
      have hminir : ∀ q ∈ rest, q.2.Sublist files ∧
          ∀ f ∈ q.2, fs.getsize f = some q.1.2 ∧ fs.minihash f = some q.1.1 :=
        fun q hq => hmini q (List.mem_cons_of_mem _ hq)
      have hq0 := hmini ((hh0, size), vs) (List.mem_cons_self _ _)
      by_cases hlen : vs.length < 2
      · rw [stage3, if_pos hlen] at h
        cases hem : emitGroup fs vs.headI [] st with
        | none => rw [hem] at h; cases h
        | some st1 =>
            rw [hem] at h
            refine ih _ _ hminir hndr ?_ h
            intro p hp
            obtain ⟨h1, h2, ⟨h3, h4, h5⟩, h6⟩ := hinv p hp
            refine ⟨h1, h2, ⟨h3, h4, ?_⟩, h6⟩
            intro hc
            exact h5 (by simp [dkeys] at hc ⊢; exact Or.inr hc)
      · rw [stage3, if_neg hlen] at h
        rcases hhf : hashFullFiles fs size vs full st with ⟨full1, st1⟩
        rw [hhf] at h
        have hfull1 : full1 = (hashFullFiles fs size vs full st).1 := by rw [hhf]
        have hinner : InnerInv fs files (dkeys rest) size hh0 vs full := by
          intro p hp
          obtain ⟨h1, h2, ⟨h3, h4, h5⟩, h6⟩ := hinv p hp
          refine ⟨h1, h2, Or.inr ⟨h6, ⟨h3, h4, ?_⟩, ?_⟩⟩
          · intro hc
            exact h5 (by simp [dkeys] at hc ⊢; exact Or.inr hc)
          · intro f hf ⟨hc1, hc2⟩
            obtain ⟨g, hg⟩ := List.exists_mem_of_ne_nil p.2 h1
            have hgp := h2 g hg
            have hfp := hq0.2 f hf
            have hmini_eq : fs.minihash f = fs.minihash g := by
              apply hcons f g
              · rw [hfp.1, ← hc2, ← hgp.1]
              · rw [hfp.1]; simp
              · rw [hc1, ← hgp.2]
              · rw [hc1]; simp
            have : some hh0 = some h3 := by
              rw [← hfp.2, hmini_eq, h4 g hg]
            injection this with hthis
            apply h5
            rw [← hthis, hc2]
            simp [dkeys]
        have hinner2 := hashFullFiles_inv fs files (dkeys rest) size hh0 vs
          full st hq0.2 hq0.1 hinner
        rw [← hfull1] at hinner2
        refine ih _ _ hminir hndr ?_ h
        intro p hp
        obtain ⟨h1, h2, h3⟩ := hinner2 p hp
        rcases h3 with ⟨hps, htag, hsb⟩ | ⟨hsb, ⟨h3, h4, h5⟩, _⟩
        · refine ⟨h1, h2, ⟨hh0, htag, ?_⟩, by simpa using hsb⟩
          rw [hps]
          exact hhd
        · exact ⟨h1, h2, ⟨h3, h4, h5⟩, hsb⟩

theorem stage3_OutOK (fs : FS) (files : List String)
    (mini : List ((String × Int) × List String))
    (full : List ((String × Int) × List String)) (st : LsState)
    {full' : List ((String × Int) × List String)} {st' : LsState}
    (hb : ∀ p ∈ mini, p.2 ≠ [] ∧ ∀ f ∈ p.2, f ∈ files)
    (hok : OutOK fs files st)
    (h : stage3 fs mini full st = some (full', st')) :
    OutOK fs files st' := by
  induction mini generalizing full st with
  | nil =>
      simp only [stage3, Option.some.injEq, Prod.mk.injEq] at h
      rw [← h.2]; exact hok
  | cons q rest ih =>
      obtain ⟨⟨hh0, size⟩, vs⟩ := q
      have hbr : ∀ p ∈ rest, p.2 ≠ [] ∧ ∀ f ∈ p.2, f ∈ files :=
        fun p hp => hb p (List.mem_cons_of_mem _ hp)
      have hbq := hb ((hh0, size), vs) (List.mem_cons_self _ _)
      by_cases hlen : vs.length < 2
      · rw [stage3, if_pos hlen] at h
        cases hem : emitGroup fs vs.headI [] st with
        | none => rw [hem] at h; cases h
        | some st1 =>
            rw [hem] at h
            have hsub : ((vs.headI : String) :: ([] : List String)).Sublist files := by
              rw [List.singleton_sublist]
              exact hbq.2 _ (headI_mem_self hbq.1)
            exact ih _ _ hbr (emitGroup_OutOK hsub hem hok) h
      · rw [stage3, if_neg hlen] at h
        rcases hhf : hashFullFiles fs size vs full st with ⟨full1, st1⟩
        rw [hhf] at h
        have hst1 : st1 = (hashFullFiles fs size vs full st).2 := by rw [hhf]
        have hok1 : OutOK fs files st1 := by
          intro e he
          rw [hst1, hashFullFiles_state] at he
          exact hok e he
        exact ih _ _ hbr hok1 h

/-! ## Whole-pipeline lemmas -/

theorem ls_elim {fs : FS} {files : List String} {md5 : Bool} {st : LsState}
    (h : _ls fs files md5 = some st) :
    ∃ sizes st1 mini st2 full st3,
      stage1 fs files [] initState = (sizes, st1) ∧
      stage2 fs sizes [] st1 = some (mini, st2) ∧
      stage3 fs mini [] st2 = some (full, st3) ∧
      stage4 fs full st3 = some st := by
  unfold _ls at h
  rcases h1 : stage1 fs files [] initState with ⟨sizes, st1⟩
  rw [h1] at h
  dsimp only at h
  cases h2 : stage2 fs sizes [] st1 with
  | none => rw [h2] at h; cases h
  | some p2 =>
      obtain ⟨mini, st2⟩ := p2
      rw [h2] at h
      dsimp only at h
      cases h3 : stage3 fs mini [] st2 with
      | none => rw [h3] at h; cases h
      | some p3 =>
          obtain ⟨full, st3⟩ := p3
          rw [h3] at h
          dsimp only at h
          exact ⟨sizes, st1, mini, st2, full, st3, rfl, h2, h3, h⟩

theorem stage1_fst_eq (fs : FS) (files : List String) {sizes st1}
    (h : stage1 fs files [] initState = (sizes, st1)) :
    sizes = (stage1 fs files [] initState).1 ∧
    st1 = (stage1 fs files [] initState).2 := by
  rw [h]; exact ⟨rfl, rfl⟩

/-- The final Stage 1 size buckets are exactly the filters of the traversal
by size. -/
theorem ls_sizes_dget {fs : FS} {files : List String} {sizes st1}
    (h : stage1 fs files [] initState = (sizes, st1)) (k : Int) :
    dget sizes k = files.filter (fun f => decide (fs.getsize f = some k)) := by
  obtain ⟨h1, _⟩ := stage1_fst_eq fs files h
  rw [h1, stage1_dget]
  simp [dget]

theorem ls_sizes_bucket_props {fs : FS} {files : List String} {sizes st1}
    (h : stage1 fs files [] initState = (sizes, st1)) :
    ∀ p ∈ sizes, p.2 ≠ [] ∧ p.2.Sublist files ∧
      ∀ f ∈ p.2, fs.getsize f = some p.1 := by
  obtain ⟨h1, _⟩ := stage1_fst_eq fs files h
  intro p hp
  have hnd : (dkeys sizes).Nodup := by
    rw [h1]
    exact stage1_keys_nodup fs files [] initState (by simp [dkeys])
  have hne : p.2 ≠ [] := by
    rw [h1] at hp
    exact stage1_nonempty fs files [] initState (by simp) p hp
  obtain ⟨k, vs⟩ := p
  have hdg : dget sizes k = vs := mem_dget hnd hp
  have hfk := ls_sizes_dget h k
  rw [hdg] at hfk
  refine ⟨hne, ?_, ?_⟩
  · rw [hfk]
    exact List.filter_sublist _
  · intro f hf
    rw [hfk] at hf
    have := List.of_mem_filter hf
    simpa using this

/-- The whole accounting ledger of a completed scan is a permutation of the
traversed file list. -/
theorem ls_ledger_perm {fs : FS} {files : List String} {md5 : Bool}
    {st : LsState} (h : _ls fs files md5 = some st) :
    (ledger st).Perm files := by
  obtain ⟨sizes, st1, mini, st2, full, st3, h1, h2, h3, h4⟩ := ls_elim h
  obtain ⟨hsz, hst1⟩ := stage1_fst_eq fs files h1
  have hszne : ∀ p ∈ sizes, p.2 ≠ [] := by
    rw [hsz]
    exact stage1_nonempty fs files [] initState (by simp)
  have hminine : ∀ p ∈ mini, p.2 ≠ [] :=
    stage2_nonempty fs sizes [] st1 (by simp) h2
  have hfullne : ∀ p ∈ full, p.2 ≠ [] :=
    stage3_full_nonempty fs mini [] st2 (by simp) h3
  have p2 := stage2_ledger fs sizes [] st1 hszne h2
  have p3 := stage3_ledger fs mini [] st2 hminine h3
  have p4 := stage4_ledger fs full st3 hfullne h4
  have p1v : (dvals sizes).Perm
      (files.filter (fun f => (fs.getsize f).isSome)) := by
    rw [hsz]
    simpa [dvals] using stage1_dvals_perm fs files [] initState
  have hled1 : ledger st1 = files.filter (fun f => (fs.getsize f).isNone) := by
    rw [hst1, stage1_state]
    simp [ledger, groupFiles, initState]
  rw [List.perm_iff_count]
  intro a
  have c1 := p1v.count_eq a
  have c2 := p2.count_eq a
  have c3 := p3.count_eq a
  have c4 := p4.count_eq a
  have c5 := (List.filter_append_perm (fun f => (fs.getsize f).isSome) files).count_eq a
  have hcompl : files.filter (fun f => !(fs.getsize f).isSome) =
      files.filter (fun f => (fs.getsize f).isNone) := by
    apply List.filter_congr
    intro x _
    cases fs.getsize x <;> simp
  rw [hcompl] at c5
  rw [hled1] at c2
  simp only [List.count_append, dvals_nil, List.count_nil] at c1 c2 c3 c4 c5 ⊢
  omega

/-- Every excluded file had a failing probe and was warned about. -/
theorem ls_failed_props {fs : FS} {files : List String} {md5 : Bool}
    {st : LsState} (h : _ls fs files md5 = some st) :
    ∀ f ∈ st.failed,
      (fs.getsize f = none ∨ fs.minihash f = none ∨ fs.fullhash f = none) ∧
      warnMsg f ∈ st.warns := by
  obtain ⟨sizes, st1, mini, st2, full, st3, h1, h2, h3, h4⟩ := ls_elim h
  obtain ⟨hsz, hst1⟩ := stage1_fst_eq fs files h1
  obtain ⟨_, _, _, ⟨lf2, lw2, hf2, hw2, hp2⟩⟩ := stage2_main fs sizes [] st1 h2
  obtain ⟨_, _, _, ⟨lf3, lw3, hf3, hw3, hp3⟩⟩ := stage3_main fs mini [] st2 h3
  obtain ⟨_, _, hf4, _, ⟨lw4, hw4⟩⟩ := stage4_main fs full st3 h4
  have hfail1 : st1.failed = files.filter (fun f => (fs.getsize f).isNone) := by
    rw [hst1, stage1_state]; simp [initState]
  have hwarn1 : st1.warns =
      (files.filter (fun f => (fs.getsize f).isNone)).map warnMsg := by
    rw [hst1, stage1_state]; simp [initState]
  intro f hf
  rw [hf4, hf3, hf2] at hf
  rw [hw4, hw3, hw2]
  rcases List.mem_append.mp hf with hf | hfl3
  · rcases List.mem_append.mp hf with hf1 | hfl2
    · rw [hfail1] at hf1
      have hc := List.of_mem_filter hf1
      refine ⟨Or.inl (by simpa using hc), ?_⟩
      have : warnMsg f ∈ st1.warns := by
        rw [hwarn1]
        exact List.mem_map_of_mem _ hf1
      simp [this]
    · obtain ⟨hc, hw⟩ := hp2 f hfl2
      exact ⟨Or.inr (Or.inl hc), by simp [hw]⟩
  · obtain ⟨hc, hw⟩ := hp3 f hfl3
    exact ⟨Or.inr (Or.inr hc), by simp [hw]⟩

/-- A file whose size probe fails is excluded. -/
theorem ls_getsize_failed {fs : FS} {files : List String} {md5 : Bool}
    {st : LsState} (h : _ls fs files md5 = some st)
    {f : String} (hmem : f ∈ files) (hgs : fs.getsize f = none) :
    f ∈ st.failed := by
  obtain ⟨sizes, st1, mini, st2, full, st3, h1, h2, h3, h4⟩ := ls_elim h
  obtain ⟨hsz, hst1⟩ := stage1_fst_eq fs files h1
  obtain ⟨_, _, _, ⟨lf2, lw2, hf2, hw2, hp2⟩⟩ := stage2_main fs sizes [] st1 h2
  obtain ⟨_, _, _, ⟨lf3, lw3, hf3, hw3, hp3⟩⟩ := stage3_main fs mini [] st2 h3
  obtain ⟨_, _, hf4, _, _⟩ := stage4_main fs full st3 h4
  have hfail1 : st1.failed = files.filter (fun f => (fs.getsize f).isNone) := by
    rw [hst1, stage1_state]; simp [initState]
  rw [hf4, hf3, hf2]
  have : f ∈ st1.failed := by
    rw [hfail1]
    exact List.mem_filter.mpr ⟨hmem, by simp [hgs]⟩
  simp [this]

theorem ls_mini_bucket_props {fs : FS} {files : List String}
    {sizes st1 mini st2}
    (h1 : stage1 fs files [] initState = (sizes, st1))
    (h2 : stage2 fs sizes [] st1 = some (mini, st2)) :
    ∀ q ∈ mini, q.2.Sublist files ∧
      ∀ f ∈ q.2, fs.getsize f = some q.1.2 ∧ fs.minihash f = some q.1.1 := by
  obtain ⟨hsz, hst1⟩ := stage1_fst_eq fs files h1
  have hszknd : (dkeys sizes).Nodup := by
    rw [hsz]
    exact stage1_keys_nodup fs files [] initState (by simp [dkeys])
  have hminknd : (dkeys mini).Nodup :=
    stage2_keys_nodup fs sizes [] st1 (by simp [dkeys]) h2
  have hminine : ∀ p ∈ mini, p.2 ≠ [] :=
    stage2_nonempty fs sizes [] st1 (by simp) h2
  intro q hq
  obtain ⟨⟨hh, s⟩, vs⟩ := q
  have hdg : dget mini (hh, s) = vs := mem_dget hminknd hq
  have hch := stage2_dget fs sizes [] st1 hszknd (by simp) h2 hh s
  rw [hdg] at hch
  simp only [dget, List.nil_append] at hch
  by_cases hlen : 2 ≤ (dget sizes s).length
  · rw [if_pos hlen] at hch
    rw [ls_sizes_dget h1 s] at hch
    constructor
    · rw [hch]
      exact ((List.filter_sublist _).trans (List.filter_sublist _))
    · intro f hf
      rw [hch] at hf
      have hf1 := List.of_mem_filter hf
      have hf2 := List.mem_of_mem_filter hf
      have hf3 := List.of_mem_filter hf2
      constructor
      · simpa using hf3
      · simpa using hf1
  · rw [if_neg hlen] at hch
    exact absurd hch (hminine _ hq)

/-- Every emitted record of a completed scan lists its group as an ordered
sublist of the traversal with the representative first, and carries the
seven stat fields of the representative (assuming digest collision
freedom). -/
theorem ls_out_ok {fs : FS} {files : List String} {md5 : Bool} {st : LsState}
    (hcons : HashConsistent fs) (h : _ls fs files md5 = some st) :
    OutOK fs files st := by
  obtain ⟨sizes, st1, mini, st2, full, st3, h1, h2, h3, h4⟩ := ls_elim h
  obtain ⟨hsz, hst1⟩ := stage1_fst_eq fs files h1
  have hsprops := ls_sizes_bucket_props h1
  have hok1 : OutOK fs files st1 := by
    intro e he
    rw [hst1, stage1_state] at he
    simp [initState] at he
  have hok2 : OutOK fs files st2 :=
    stage2_OutOK fs files sizes [] st1
      (fun p hp => ⟨(hsprops p hp).1, fun f hf => (hsprops p hp).2.1.subset hf⟩)
      hok1 h2
  have hminknd : (dkeys mini).Nodup :=
    stage2_keys_nodup fs sizes [] st1 (by simp [dkeys]) h2
  have hminine : ∀ p ∈ mini, p.2 ≠ [] :=
    stage2_nonempty fs sizes [] st1 (by simp) h2
  have hminiprops := ls_mini_bucket_props h1 h2
  have hok3 : OutOK fs files st3 :=
    stage3_OutOK fs files mini [] st2
      (fun p hp => ⟨hminine p hp, fun f hf => ((hminiprops p hp).1).subset hf⟩)
      hok2 h3
  have hfullinv : FullInv fs files [] full :=
    stage3_FullInv fs files mini [] st2 hcons hminiprops hminknd
      (by intro p hp; simp at hp) h3
  exact stage4_OutOK fs files full st3
    (fun p hp => ⟨(hfullinv p hp).1, (hfullinv p hp).2.2.2⟩) hok3 h4

/-- A file whose partial hash was computed lies in a multi-member size
bucket. -/
theorem ls_hashedPart_mem {fs : FS} {files : List String} {md5 : Bool}
    {st : LsState} (h : _ls fs files md5 = some st) {f : String}
    (hf : f ∈ st.hashedPart) :
    ∃ k, fs.getsize f = some k ∧
      2 ≤ (files.filter (fun g => decide (fs.getsize g = some k))).length := by
  obtain ⟨sizes, st1, mini, st2, full, st3, h1, h2, h3, h4⟩ := ls_elim h
  obtain ⟨hsz, hst1⟩ := stage1_fst_eq fs files h1
  have hszknd : (dkeys sizes).Nodup := by
    rw [hsz]
    exact stage1_keys_nodup fs files [] initState (by simp [dkeys])
  obtain ⟨_, hP2, _, _⟩ := stage2_main fs sizes [] st1 h2
  obtain ⟨hP3, _, _, _⟩ := stage3_main fs mini [] st2 h3
  obtain ⟨hP4, _, _, _, _⟩ := stage4_main fs full st3 h4
  have hp1 : st1.hashedPart = [] := by
    rw [hst1, stage1_state]; simp [initState]
  rw [hP4, hP3, hP2, hp1, List.nil_append] at hf
  rw [List.mem_flatten] at hf
  obtain ⟨l, hl, hfl⟩ := hf
  rw [List.mem_map] at hl
  obtain ⟨p, hp, rfl⟩ := hl
  have hpm := List.mem_of_mem_filter hp
  have hplen := List.of_mem_filter hp
  rw [decide_eq_true_eq] at hplen
  obtain ⟨k, vs⟩ := p
  have hdg : dget sizes k = vs := mem_dget hszknd hpm
  have hfk := ls_sizes_dget h1 k
  rw [hdg] at hfk
  refine ⟨k, ?_, ?_⟩
  · have : f ∈ vs := hfl
    rw [hfk] at this
    have := List.of_mem_filter this
    simpa using this
  · rw [← hfk]
    exact hplen

/-- A file whose full hash was computed lies in a multi-member
(partial-hash, size) bucket. -/
theorem ls_hashedFull_mem {fs : FS} {files : List String} {md5 : Bool}
    {st : LsState} (h : _ls fs files md5 = some st) {f : String}
    (hf : f ∈ st.hashedFull) :
    ∃ hh k, fs.getsize f = some k ∧ fs.minihash f = some hh ∧
      2 ≤ ((files.filter (fun g => decide (fs.getsize g = some k))).filter
            (fun g => decide (fs.minihash g = some hh))).length := by
  obtain ⟨sizes, st1, mini, st2, full, st3, h1, h2, h3, h4⟩ := ls_elim h
  obtain ⟨hsz, hst1⟩ := stage1_fst_eq fs files h1
  have hszknd : (dkeys sizes).Nodup := by
    rw [hsz]
    exact stage1_keys_nodup fs files [] initState (by simp [dkeys])
  have hminknd : (dkeys mini).Nodup :=
    stage2_keys_nodup fs sizes [] st1 (by simp [dkeys]) h2
  have hminine : ∀ p ∈ mini, p.2 ≠ [] :=
    stage2_nonempty fs sizes [] st1 (by simp) h2
  obtain ⟨hF2, _, _, _⟩ := stage2_main fs sizes [] st1 h2
  obtain ⟨_, hF3, _, _⟩ := stage3_main fs mini [] st2 h3
  obtain ⟨_, hF4, _, _, _⟩ := stage4_main fs full st3 h4
  have hp1 : st1.hashedFull = [] := by
    rw [hst1, stage1_state]; simp [initState]
  rw [hF4, hF3, hF2, hp1, List.nil_append] at hf
  rw [List.mem_flatten] at hf
  obtain ⟨l, hl, hfl⟩ := hf
  rw [List.mem_map] at hl
  obtain ⟨q, hq, rfl⟩ := hl
  have hqm := List.mem_of_mem_filter hq
  have hqlen := List.of_mem_filter hq
  rw [decide_eq_true_eq] at hqlen
  obtain ⟨⟨hh, s⟩, vs⟩ := q
  have hdg : dget mini (hh, s) = vs := mem_dget hminknd hqm
  have hch := stage2_dget fs sizes [] st1 hszknd (by simp) h2 hh s
  rw [hdg] at hch
  simp only [dget, List.nil_append] at hch
  by_cases hlen : 2 ≤ (dget sizes s).length
  · rw [if_pos hlen] at hch
    rw [ls_sizes_dget h1 s] at hch
    have hfv : f ∈ vs := hfl
    rw [hch] at hfv
    have hf1 := List.of_mem_filter hfv
    have hf2 := List.mem_of_mem_filter hfv
    have hf3 := List.of_mem_filter hf2
    refine ⟨hh, s, by simpa using hf3, by simpa using hf1, ?_⟩
    rw [← hch]
    exact hqlen
  · rw [if_neg hlen] at hch
    exact absurd hch (hminine _ hqm)

theorem filter_eq_singleton {l : List String} {f : String} {P : String → Bool}
    (hnd : l.Nodup) (hmem : f ∈ l) (hPf : P f = true)
    (huniq : ∀ g ∈ l, P g = true → g = f) : l.filter P = [f] := by
  induction l with
  | nil => simp at hmem
  | cons a t ih =>
      rw [List.nodup_cons] at hnd
      rcases List.mem_cons.mp hmem with rfl | hmem2
      · have ht : t.filter P = [] := by
          rw [List.filter_eq_nil_iff]
          intro g hg hPg
          have := huniq g (List.mem_cons_of_mem _ hg) hPg
          subst this
          exact hnd.1 hg
        rw [List.filter_cons, ht]
        simp [hPf]
      · have ha : ¬ P a = true := by
          intro hPa
          have := huniq a (List.mem_cons_self _ _) hPa
          subst this
          exact hnd.1 hmem2
        rw [List.filter_cons]
        simp only [ha, if_neg, Bool.false_eq_true, ite_false]
        exact ih hnd.2 hmem2
          (fun g hg hPg => huniq g (List.mem_cons_of_mem _ hg) hPg)

/-- A file of unique size is reported as a singleton straight from
Stage 1. -/
theorem ls_unique_size_emitted {fs : FS} {files : List String} {md5 : Bool}
    {st : LsState} {f : String} {s : Int} {sr : StatRes}
    (h : _ls fs files md5 = some st) (hnd : files.Nodup)
    (hmem : f ∈ files) (hgs : fs.getsize f = some s)
    (huniq : ∀ x ∈ files, x ≠ f → fs.getsize x ≠ some s)
    (hstat : fs.stat f = some sr) :
    ∃ e ∈ st.out, e.rep = f ∧ e.dups = [] := by
  obtain ⟨sizes, st1, mini, st2, full, st3, h1, h2, h3, h4⟩ := ls_elim h
  have hfl : files.filter (fun g => decide (fs.getsize g = some s)) = [f] := by
    apply filter_eq_singleton hnd hmem (by simp [hgs])
    intro g hg hPg
    rw [decide_eq_true_eq] at hPg
    by_contra hne
    exact huniq g hg hne hPg
  have hdg : dget sizes s = [f] := by rw [ls_sizes_dget h1 s, hfl]
  have hmem2 : ((s, [f]) : Int × List String) ∈ sizes := by
    have := dget_mem (d := sizes) (k := s) (by rw [hdg]; simp)
    rw [hdg] at this
    exact this
  obtain ⟨e, he, hrep, hdups⟩ :=
    stage2_singleton_emit fs sizes [] st1 hmem2 h2 hstat
  obtain ⟨_, _, ⟨lo3, hO3⟩, _⟩ := stage3_main fs mini [] st2 h3
  obtain ⟨_, _, _, ⟨lo4, hO4⟩, _⟩ := stage4_main fs full st3 h4
  refine ⟨e, ?_, hrep, hdups⟩
  rw [hO4, hO3]
  exact List.mem_append_left _ (List.mem_append_left _ he)

/-- A file that shares its size with others but is alone in its
(partial-hash, size) bucket is reported as a singleton from Stage 2. -/
theorem ls_unique_mini_emitted {fs : FS} {files : List String} {md5 : Bool}
    {st : LsState} {g : String} {s : Int} {hh : String} {sr : StatRes}
    (h : _ls fs files md5 = some st) (hnd : files.Nodup)
    (hmem : g ∈ files) (hgs : fs.getsize g = some s)
    (hmh : fs.minihash g = some hh)
    (hmulti : 2 ≤ (files.filter (fun x => decide (fs.getsize x = some s))).length)
    (huniq : ∀ x ∈ files, x ≠ g →
      ¬(fs.getsize x = some s ∧ fs.minihash x = some hh))
    (hstat : fs.stat g = some sr) :
    ∃ e ∈ st.out, e.rep = g ∧ e.dups = [] := by
  obtain ⟨sizes, st1, mini, st2, full, st3, h1, h2, h3, h4⟩ := ls_elim h
  obtain ⟨hsz, hst1⟩ := stage1_fst_eq fs files h1
  have hszknd : (dkeys sizes).Nodup := by
    rw [hsz]
    exact stage1_keys_nodup fs files [] initState (by simp [dkeys])
  have hB := ls_sizes_dget h1 s
  have hmini_dget := stage2_dget fs sizes [] st1 hszknd (by simp) h2 hh s
  have hlen : 2 ≤ (dget sizes s).length := by rw [hB]; exact hmulti
  rw [if_pos hlen, hB] at hmini_dget
  simp only [dget, List.nil_append] at hmini_dget
  have hfilter : (files.filter
      (fun x => decide (fs.getsize x = some s))).filter
      (fun x => decide (fs.minihash x = some hh)) = [g] := by
    apply filter_eq_singleton
    · exact (List.filter_sublist _).nodup hnd
    · exact List.mem_filter.mpr ⟨hmem, by simp [hgs]⟩
    · simp [hmh]
    · intro x hx hPx
      rw [decide_eq_true_eq] at hPx
      have hx1 := List.mem_of_mem_filter hx
      have hx2 := List.of_mem_filter hx
      rw [decide_eq_true_eq] at hx2
      by_contra hne
      exact huniq x hx1 hne ⟨hx2, hPx⟩
  rw [hfilter] at hmini_dget
  have hmem2 : (((hh, s), [g]) : (String × Int) × List String) ∈ mini := by
    have := dget_mem (d := mini) (k := (hh, s)) (by rw [hmini_dget]; simp)
    rw [hmini_dget] at this
    exact this
  obtain ⟨e, he, hrep, hdups⟩ :=
    stage3_singleton_emit fs mini [] st2 hmem2 h3 hstat
  obtain ⟨_, _, _, ⟨lo4, hO4⟩, _⟩ := stage4_main fs full st3 h4
  refine ⟨e, ?_, hrep, hdups⟩
  rw [hO4]
  exact List.mem_append_left _ he

/-! ## Concrete environments used by the claim-level theorems -/

theorem findRecord_append_of_none {uid : Nat} {l : List (Nat × StrOrInt)}
    (h : findRecord uid l = none) (l2 : List (Nat × StrOrInt)) :
    findRecord uid (l ++ l2) = findRecord uid l2 := by
  induction l with
  | nil => simp
  | cons p rest ih =>
      obtain ⟨k, v⟩ := p
      by_cases hk : k = uid
      · simp only [findRecord, if_pos hk] at h
        cases h
      · rw [List.cons_append]
        simp only [findRecord, if_neg hk] at h ⊢
        exact ih h

/-! ## Claim C7 -/

/-- C7 counterexample: the source renders `readable_size(1024)` as
`"1.0 KiB"`, not `"1 KiB"`: Python prints the rounded float `1.0` with its
trailing `.0`. -/
theorem c7_counterexample :
    readable_size 1024 = some "1.0 KiB" ∧ "1.0 KiB" ≠ "1 KiB" := by
  exact ⟨rfl, by decide⟩

/-- C7 (amended): `readable_size` maps 0 to `"0 B"`, 1024 to `"1.0 KiB"`
(the trailing `.0` of the float rendering is kept, so not `"1 KiB"`), 1536
to `"1.5 KiB"`, and every nonpositive input to `"0 B"` without raising a
computation fault. -/
theorem c7_readable_size_amended :
    readable_size 0 = some "0 B" ∧
    readable_size 1024 = some "1.0 KiB" ∧
    readable_size 1536 = some "1.5 KiB" ∧
    ∀ s : Int, s ≤ 0 → readable_size s = some "0 B" := by
  refine ⟨rfl, rfl, rfl, ?_⟩
  intro s hs
  unfold readable_size
  rw [if_pos hs]

/-- C7 witness: the negative input -7 renders as `"0 B"`. -/
theorem c7_readable_size_witness : readable_size (-7) = some "0 B" :=
  c7_readable_size_amended.2.2.2 (-7) (by decide)

/-! ## Claim C5 -/

/-- C5 counterexample: resolving the unknown id 99999 returns the raw
integer id (`StrOrInt.int 99999`) and caches that integer, not the string
`"99999"`: the source `_name` returns `uid` itself on `KeyError`, and the
string conversion only happens later in `file_stats`. -/
theorem c5_counterexample :
    (name dbC5 99999 .user cache0).1 = StrOrInt.int 99999 ∧
    (name dbC5 99999 .user cache0).1 ≠ StrOrInt.str "99999" ∧
    (name dbC5 99999 .user cache0).2.records =
      [(99999, StrOrInt.int 99999)] := by
  exact ⟨rfl, by decide, rfl⟩

/-- A cache hit returns the stored value and leaves the cache (and its
query log) unchanged. -/
theorem name_hit (db : UnixDB) (uid : Nat) (t : UidType) (c : Cache)
    {v : StrOrInt} (h : Cache.find c uid = some v) :
    name db uid t c = (v, c) := by
  unfold name
  rw [h]

/-- C5 (amended): for an id missing from the queried account database and
not yet cached, resolution returns the numeric id itself (not its string
form), caches that fallback exactly like a successful resolution, and a
second resolution of the same id is served from the cache with no further
database query; the id is rendered as its decimal string only at display
time (`pyStr`, the `str()` conversion in `file_stats`). -/
theorem c5_fallback_amended (db : UnixDB) (uid : Nat) (t : UidType)
    (c : Cache) (hc : c.find uid = none)
    (hdb : (match t with
            | UidType.user => db.passwd uid
            | UidType.group => db.grp uid) = none) :
    (name db uid t c).1 = StrOrInt.int uid ∧
    (name db uid t c).2.records = c.records ++ [(uid, StrOrInt.int uid)] ∧
    (name db uid t c).2.queries = c.queries ++ [(t, uid)] ∧
    name db uid t (name db uid t c).2 =
      (StrOrInt.int uid, (name db uid t c).2) ∧
    pyStr (StrOrInt.int uid) = toString uid := by
  have hraw : nameRaw db uid t = StrOrInt.int uid := by
    cases t <;> simp_all [nameRaw]
  have h1 : name db uid t c =
      (StrOrInt.int uid,
       { records := c.records ++ [(uid, StrOrInt.int uid)],
         queries := c.queries ++ [(t, uid)] }) := by
    unfold name
    rw [show Cache.find c uid = none from hc, hraw]
  refine ⟨by rw [h1], by rw [h1], by rw [h1], ?_, rfl⟩
  rw [h1]
  apply name_hit
  unfold Cache.find at hc ⊢
  rw [findRecord_append_of_none hc]
  simp [findRecord]

/-- C5 witness: the amended statement evaluated for uid 99999 against the
empty database and empty cache. -/
theorem c5_fallback_witness :
    (name dbC5 99999 .user cache0).1 = StrOrInt.int 99999 ∧
    (name dbC5 99999 .user cache0).2.records =
      cache0.records ++ [(99999, StrOrInt.int 99999)] ∧
    (name dbC5 99999 .user cache0).2.queries =
      cache0.queries ++ [(UidType.user, 99999)] ∧
    name dbC5 99999 .user (name dbC5 99999 .user cache0).2 =
      (StrOrInt.int 99999, (name dbC5 99999 .user cache0).2) ∧
    pyStr (StrOrInt.int 99999) = toString 99999 :=
  c5_fallback_amended dbC5 99999 .user cache0 rfl rfl

/-! ## Claim C6 -/

/-- C6: evaluation of the code at the failing input.  The source keeps one
shared `users` dictionary for both uid and gid lookups (`file_stats` passes
the same `users` to both `name` calls), so for a file with uid 5 = `alice`
and gid 5 = `staff` the group field is reported as `alice` from the cached
owner entry, and no group-database query is ever made, although the group
database maps gid 5 to `staff`. -/
theorem c6_shared_cache_bug :
    (file_stats fsC6 "f" cache0).1 =
      some ["7", "-rw-r--r--", "alice", "alice", "1", "1.0 B",
            "2020-01-01-00:00"] ∧
    (file_stats fsC6 "f" cache0).2.1.queries = [(UidType.user, 5)] ∧
    dbC6.grp 5 = some "staff" := by
  exact ⟨rfl, rfl, rfl⟩

/-! ## Claim C10 -/

/-- C10 counterexample: for a successfully stat-ed file of `2 ^ 95` bytes,
`file_stats` returns neither `[]` nor a seven-element list: the `try` of
the source guards only `os.stat`, so the `IndexError` raised inside
`readable_size` (the nine-entry units tuple is exhausted) propagates out of
`file_stats` (modelled as the `none` result). -/
theorem c10_counterexample :
    fsC10.stat "f" ≠ none ∧ (file_stats fsC10 "f" cache0).1 = none := by
  exact ⟨by decide, rfl⟩

/-- C10 (amended): `file_stats` returns `[]` exactly when the stat probe
fails; when the probe succeeds and the human-readable size conversion does
not fault, it returns exactly seven elements, each one converted to a
string (including the raw byte size); when the conversion faults (sizes of
at least about `1024 ^ 9` bytes), the fault propagates out of `file_stats`
instead of producing a list. -/
theorem c10_file_stats_amended (fs : FS) (f : String) (u : Cache) :
    ((file_stats fs f u).1 = some [] ↔ fs.stat f = none) ∧
    (∀ sr, fs.stat f = some sr → ∀ hs, readable_size sr.st_size = some hs →
      ∃ own grpn, (file_stats fs f u).1 =
        some [toString sr.st_ino, sr.filemode, own, grpn,
              toString sr.st_size, hs, sr.mdate] ∧
        ([toString sr.st_ino, sr.filemode, own, grpn,
          toString sr.st_size, hs, sr.mdate] : List String).length = 7) ∧
    (∀ sr, fs.stat f = some sr → readable_size sr.st_size = none →
      (file_stats fs f u).1 = none) := by
  refine ⟨file_stats_empty_iff fs f u, ?_, ?_⟩
  · intro sr hstat hs hrs
    rw [file_stats_fst fs f u hstat, hrs]
    exact ⟨_, _, rfl, rfl⟩
  · intro sr hstat hrs
    rw [file_stats_fst fs f u hstat, hrs]

/-- C10 witness: the amended statement applied to a one-byte file. -/
theorem c10_file_stats_witness :
    ∃ own grpn, (file_stats fsW10 "a" cache0).1 =
      some [toString srW10.st_ino, srW10.filemode, own, grpn,
            toString srW10.st_size, "1.0 B", srW10.mdate] ∧
      ([toString srW10.st_ino, srW10.filemode, own, grpn,
        toString srW10.st_size, "1.0 B", srW10.mdate] : List String).length = 7 :=
  (c10_file_stats_amended fsW10 "a" cache0).2.1 srW10 rfl "1.0 B" rfl

/-! ## Claim C4 -/

/-- C4 counterexample: with the toggle passed as false, the engine still
computes the full-file hash of both candidate files (the hashedFull log is
`["a", "b"]`, not empty) and the final report is keyed by (full hash,
size): the two files, which share a partial hash and would form one group
under (partial hash, size), are emitted as two separate singleton
groups. -/
theorem c4_counterexample :
    (_ls fsC4 ["a", "b"] false).map
      (fun st => (st.hashedFull, st.out.map (fun e => (e.rep, e.dups)))) =
      some (["a", "b"], [("a", []), ("b", [])]) ∧
    (["a", "b"] : List String) ≠ [] ∧
    fsC4.minihash "a" = fsC4.minihash "b" := by
  exact ⟨rfl, by decide, rfl⟩

/-- C4 (amended): the `md5` toggle of `_ls` is accepted but never read: the
engine behaves identically for every value of the toggle, always running
Stage 3 full hashing and reporting groups keyed by (full hash, size). -/
theorem c4_md5_toggle_amended :
    ∀ (fs : FS) (files : List String) (b b2 : Bool),
      _ls fs files b = _ls fs files b2 :=
  fun _ _ _ _ => rfl

/-! ## Claim C1 -/

/-- C1 counterexample: the file `b` survives every stage with no access
failure of its own (all four probes on `b` succeed), yet the scan emits no
group at all: the representative `a` of the final bucket `[a, b]` fails the
metadata probe at emission time, so the source drops the whole group.  The
union of representatives and duplicates over the emitted groups (empty) is
not the traversed set minus the files excluded by failures (the failed list
is empty). -/
theorem c1_counterexample :
    (_ls fsC1 ["a", "b"] true).map
      (fun st => (st.out, st.failed, st.dropped)) =
      some ([], [], ["a", "b"]) ∧
    fsC1.getsize "b" ≠ none ∧ fsC1.minihash "b" ≠ none ∧
    fsC1.fullhash "b" ≠ none ∧ fsC1.stat "b" ≠ none := by
  exact ⟨rfl, by decide, by decide, by decide, by decide⟩

/-- C1 (amended): for a duplicate-free traversal, the emitted group
members, the files excluded by probe or hash failures, and the members of
groups dropped because their representative failed the final metadata
probe, together form a permutation of the traversed files.  Hence every
file is accounted for exactly once: no file appears in two emitted groups
or twice in one, and every traversed file either appears in exactly one
emitted group, or was excluded by a failure of its own, or belongs to a
dropped group. -/
theorem c1_partition_amended (fs : FS) (files : List String) (md5 : Bool)
    (st : LsState) (hnd : files.Nodup) (h : _ls fs files md5 = some st) :
    (ledger st).Perm files ∧ (ledger st).Nodup ∧ (groupFiles st).Nodup ∧
    ∀ f ∈ files, f ∈ groupFiles st ∨ f ∈ st.failed ∨ f ∈ st.dropped := by
  have hp := ls_ledger_perm h
  have hnl : (ledger st).Nodup := (hp.nodup_iff).mpr hnd
  refine ⟨hp, hnl, ?_, ?_⟩
  · have hsb : (groupFiles st).Sublist (ledger st) := by
      have : ledger st = groupFiles st ++ (st.failed ++ st.dropped) := by
        simp [ledger, List.append_assoc]
      rw [this]
      exact List.sublist_append_left _ _
    exact hnl.sublist hsb
  · intro f hf
    have hmem : f ∈ ledger st := hp.mem_iff.mpr hf
    simpa [ledger, List.mem_append, or_assoc] using hmem

/-- C1 witness: the amended statement evaluated on two byte-identical
files. -/
theorem c1_partition_witness :
    (ledger stW1).Perm ["a", "b"] ∧ (ledger stW1).Nodup ∧
    (groupFiles stW1).Nodup ∧
    ∀ f ∈ (["a", "b"] : List String),
      f ∈ groupFiles stW1 ∨ f ∈ stW1.failed ∨ f ∈ stW1.dropped :=
  c1_partition_amended fsW1 ["a", "b"] true stW1 (by decide) rfl

/-! ## Claim C8 -/

/-- C8: failure handling of the pipeline.  Every file whose size probe
fails is excluded; every excluded file had a failing size, partial-hash or
full-hash probe, a warning naming it was logged, and it appears in no
emitted group and no dropped group; and every traversed file that was not
excluded is still fully processed — it ends up in an emitted group or in a
dropped group — so a single failure never aborts the scan. -/
theorem c8_failure_handling (fs : FS) (files : List String) (md5 : Bool)
    (st : LsState) (hnd : files.Nodup) (h : _ls fs files md5 = some st) :
    (∀ f ∈ files, fs.getsize f = none → f ∈ st.failed) ∧
    (∀ f ∈ st.failed,
      (fs.getsize f = none ∨ fs.minihash f = none ∨ fs.fullhash f = none) ∧
      warnMsg f ∈ st.warns ∧ f ∉ groupFiles st ∧ f ∉ st.dropped) ∧
    (∀ f ∈ files, f ∉ st.failed → f ∈ groupFiles st ∨ f ∈ st.dropped) := by
  have hp := ls_ledger_perm h
  have hnl : (ledger st).Nodup := (hp.nodup_iff).mpr hnd
  have hled : ledger st = (groupFiles st ++ st.failed) ++ st.dropped := by
    simp [ledger]
  rw [hled] at hnl
  have hdisj2 : (groupFiles st ++ st.failed).Disjoint st.dropped :=
    List.disjoint_of_nodup_append hnl
  have hdisj1 : (groupFiles st).Disjoint st.failed :=
    List.disjoint_of_nodup_append (List.Nodup.of_append_left hnl)
  refine ⟨?_, ?_, ?_⟩
  · intro f hf hgs
    exact ls_getsize_failed h hf hgs
  · intro f hf
    obtain ⟨hc, hw⟩ := ls_failed_props h f hf
    refine ⟨hc, hw, ?_, ?_⟩
    · intro hg
      exact hdisj1 hg hf
    · intro hd
      exact hdisj2 (List.mem_append_right _ hf) hd
  · intro f hf hnf
    have hmem : f ∈ ledger st := hp.mem_iff.mpr hf
    simp only [ledger, List.mem_append] at hmem
    rcases hmem with (hg | hfl) | hd
    · exact Or.inl hg
    · exact absurd hfl hnf
    · exact Or.inr hd

/-- C8 witness: the failure-handling statement evaluated on a scan in which
the size probe of `b` fails and `a` is still reported. -/
theorem c8_failure_handling_witness :
    (∀ f ∈ (["a", "b"] : List String), fsW8.getsize f = none →
      f ∈ stW8.failed) ∧
    (∀ f ∈ stW8.failed,
      (fsW8.getsize f = none ∨ fsW8.minihash f = none ∨
        fsW8.fullhash f = none) ∧
      warnMsg f ∈ stW8.warns ∧ f ∉ groupFiles stW8 ∧ f ∉ stW8.dropped) ∧
    (∀ f ∈ (["a", "b"] : List String), f ∉ stW8.failed →
      f ∈ groupFiles stW8 ∨ f ∈ stW8.dropped) :=
  c8_failure_handling fsW8 ["a", "b"] true stW8 (by decide) rfl

/-! ## Claim C2 -/

/-- C2 counterexample: the file `a` is the only member of its Stage-1 size
bucket, yet it is not emitted at all: its metadata probe fails at emission
time and the source drops it (`if not file_info: continue`), so the claim
that every single-member size bucket is emitted as a singleton group fails.
Only `b` is reported. -/
theorem c2_counterexample :
    fsC2.getsize "a" = some 1 ∧
    (∀ g ∈ (["a", "b"] : List String), g ≠ "a" →
      fsC2.getsize g ≠ some 1) ∧
    (_ls fsC2 ["a", "b"] true).map
      (fun st => st.out.map (fun e => e.rep)) = some ["b"] := by
  exact ⟨rfl, by decide, rfl⟩

/-- C2 (amended): provided its metadata probe succeeds at emission time, a
file alone in its Stage-1 size bucket is emitted as a singleton group
(empty duplicates) and neither its partial nor its full hash is ever
computed; likewise a file alone in its Stage-2 (partial hash, size) bucket
is emitted as a singleton and its full hash is never computed.  When the
metadata probe of such a file fails, the file is dropped with a warning
instead of emitted (see the counterexample), but still no hash of it is
computed. -/
theorem c2_singletons_amended (fs : FS) (files : List String) (md5 : Bool)
    (st : LsState) (f : String) (s : Int) (sr : StatRes)
    (g : String) (s2 : Int) (hh : String) (sr2 : StatRes)
    (hnd : files.Nodup) (h : _ls fs files md5 = some st)
    (hmemf : f ∈ files) (hgsf : fs.getsize f = some s)
    (huniqf : ∀ x ∈ files, x ≠ f → fs.getsize x ≠ some s)
    (hstatf : fs.stat f = some sr)
    (hmemg : g ∈ files) (hgsg : fs.getsize g = some s2)
    (hmhg : fs.minihash g = some hh)
    (hmulti : 2 ≤ (files.filter
      (fun x => decide (fs.getsize x = some s2))).length)
    (huniqg : ∀ x ∈ files, x ≠ g →
      ¬(fs.getsize x = some s2 ∧ fs.minihash x = some hh))
    (hstatg : fs.stat g = some sr2) :
    ((∃ e ∈ st.out, e.rep = f ∧ e.dups = []) ∧
      f ∉ st.hashedPart ∧ f ∉ st.hashedFull) ∧
    ((∃ e ∈ st.out, e.rep = g ∧ e.dups = []) ∧ g ∉ st.hashedFull) := by
  have hffilter : files.filter (fun x => decide (fs.getsize x = some s)) =
      [f] := by
    apply filter_eq_singleton hnd hmemf (by simp [hgsf])
    intro x hx hPx
    rw [decide_eq_true_eq] at hPx
    by_contra hne
    exact huniqf x hx hne hPx
  refine ⟨⟨ls_unique_size_emitted h hnd hmemf hgsf huniqf hstatf, ?_, ?_⟩,
    ls_unique_mini_emitted h hnd hmemg hgsg hmhg hmulti huniqg hstatg, ?_⟩
  · intro hf
    obtain ⟨k, hk1, hk2⟩ := ls_hashedPart_mem h hf
    rw [hgsf] at hk1
    injection hk1 with hk1
    subst hk1
    rw [hffilter] at hk2
    simp at hk2
  · intro hf
    obtain ⟨hh2, k, hk1, hk2, hk3⟩ := ls_hashedFull_mem h hf
    rw [hgsf] at hk1
    injection hk1 with hk1
    subst hk1
    rw [hffilter] at hk3
    have := List.length_filter_le
      (fun x => decide (fs.minihash x = some hh2)) [f]
    simp at this
    omega
  · intro hf
    obtain ⟨hh3, k, hk1, hk2, hk3⟩ := ls_hashedFull_mem h hf
    rw [hgsg] at hk1
    injection hk1 with hk1
    subst hk1
    rw [hmhg] at hk2
    injection hk2 with hk2
    subst hk2
    have hgfilter : (files.filter
        (fun x => decide (fs.getsize x = some s2))).filter
        (fun x => decide (fs.minihash x = some hh)) = [g] := by
      apply filter_eq_singleton
      · exact (List.filter_sublist _).nodup hnd
      · exact List.mem_filter.mpr ⟨hmemg, by simp [hgsg]⟩
      · simp [hmhg]
      · intro x hx hPx
        rw [decide_eq_true_eq] at hPx
        have hx1 := List.mem_of_mem_filter hx
        have hx2 := List.of_mem_filter hx
        rw [decide_eq_true_eq] at hx2
        by_contra hne
        exact huniqg x hx1 hne ⟨hx2, hPx⟩
    rw [hgfilter] at hk3
    simp at hk3

/-- C2 witness: the amended statement evaluated on three files: `u` has a
unique size, `v` and `w` share a size but differ in their 64 KiB hash. -/
theorem c2_singletons_witness :
    ((∃ e ∈ stW2.out, e.rep = "u" ∧ e.dups = []) ∧
      "u" ∉ stW2.hashedPart ∧ "u" ∉ stW2.hashedFull) ∧
    ((∃ e ∈ stW2.out, e.rep = "v" ∧ e.dups = []) ∧
      "v" ∉ stW2.hashedFull) :=
  c2_singletons_amended fsW2 ["u", "v", "w"] true stW2 "u" 1 srW1 "v" 2 "mv"
    srW1 (by decide) rfl (by decide) (by decide) (by decide) rfl
    (by decide) (by decide) (by decide) (by decide) (by decide) rfl

/-! ## Claim C3 -/

/-- C3: every emitted record of a completed scan reports its group with the
representative first and the remaining members in encounter order (the
whole group is an ordered sublist of the traversal), and its printed line
is the tab-join of the seven metadata fields of the representative in the
fixed order inode, permissions, owner, group, size in bytes, human size,
mtime, followed by the representative path and the pipe-join of the
duplicates; a singleton renders the empty string as its trailing field.
The only hypothesis beyond a completed scan is the digest
collision-freedom assumption the spec itself makes. -/
theorem c3_output_format (fs : FS) (files : List String) (md5 : Bool)
    (st : LsState) (hcons : HashConsistent fs)
    (h : _ls fs files md5 = some st) :
    ∀ e ∈ st.out,
      (e.rep :: e.dups).Sublist files ∧
      (∃ sr hs own grpn, fs.stat e.rep = some sr ∧
        readable_size sr.st_size = some hs ∧
        e.line = String.intercalate "\t"
          ([toString sr.st_ino, sr.filemode, own, grpn,
            toString sr.st_size, hs, sr.mdate] ++
            [e.rep, String.intercalate "|" e.dups])) ∧
      (e.dups = [] → String.intercalate "|" e.dups = "") := by
  intro e he
  obtain ⟨hsub, sr, hs, own, grpn, h1, h2, h3⟩ := ls_out_ok hcons h e he
  refine ⟨hsub, ⟨sr, hs, own, grpn, h1, h2, ?_⟩, fun hd => by rw [hd]; rfl⟩
  rw [Emit.line, h3]

theorem fsW3_consistent : HashConsistent fsW3 :=
  fun _ _ _ _ _ h4 => absurd rfl h4

/-- C3 witness: the output-format statement evaluated on a one-file scan
in which the single file is reported as a singleton, instantiated at the
emitted record. -/
theorem c3_output_format_witness :
    (eW3.rep :: eW3.dups).Sublist ["a"] ∧
    (∃ sr hs own grpn, fsW3.stat eW3.rep = some sr ∧
      readable_size sr.st_size = some hs ∧
      eW3.line = String.intercalate "\t"
        ([toString sr.st_ino, sr.filemode, own, grpn,
          toString sr.st_size, hs, sr.mdate] ++
          [eW3.rep, String.intercalate "|" eW3.dups])) ∧
    (eW3.dups = [] → String.intercalate "|" eW3.dups = "") :=
  c3_output_format fsW3 ["a"] true stW3 fsW3_consistent rfl eW3 (by decide)

end SpaceSavers
